import Mathlib

/-!
# A verification development for the `libfst` weighted-FST library

The repository ships only the public header `include/fst.h`; every algorithm
is specified in the accompanying design document (tropical-semiring WFSTs,
graph store, handle registry, ε-removal, determinization, minimization,
n-shortest paths, freeze, string compiler).  The definitions below embed that
specification shallowly: weights become `WithTop ℚ` (finite doubles or `+∞`,
with a separate marker for `NaN` at the API boundary), states are dense
natural-number indices, transducers are lists of per-state records, and the
process-wide handle registry is an explicit list of slots.
-/

namespace LibFst

/-- Tropical weight: a finite value or `+∞` (the semiring zero).  Finite
doubles are embedded as rationals; `⊕ = min`, `⊗ = +`, and `⊤ + x = ⊤`
exactly as the spec requires of `+∞`. -/
abbrev W : Type := WithTop ℚ

/-- A weight argument crossing the C boundary: either `NaN` (which every
mutator must refuse with `INVALID_ARG`) or a genuine tropical weight. -/
inductive FDouble where
  | nan : FDouble
  | val : W → FDouble
deriving DecidableEq

/-- Error codes of the C API (`FstError`). -/
inductive FstError where
  | ok : FstError
  | oom : FstError
  | invalidArg : FstError
  | invalidState : FstError
  | ioErr : FstError
deriving DecidableEq

/-- The sentinel `FST_NO_STATE = UINT32_MAX`. -/
def FST_NO_STATE : ℕ := 4294967295

/-- The sentinel `FST_INVALID_HANDLE = UINT32_MAX`. -/
def FST_INVALID_HANDLE : ℕ := 4294967295

/-- A transition: input label, output label, tropical weight, target state.
Label `0` is the reserved ε. -/
structure Arc where
  ilabel : ℕ
  olabel : ℕ
  weight : W
  nextstate : ℕ
deriving DecidableEq

/-- Per-state record of the graph store: final weight (`⊤` means non-final)
and the ordered out-arc list. -/
structure StateData where
  finalWeight : W
  arcs : List Arc
deriving DecidableEq

/-- A (mutable) transducer: dense states and an optional start state. -/
structure MFst where
  states : List StateData
  start : Option ℕ
deriving DecidableEq

/-- The empty transducer a fresh mutable handle resolves to. -/
def MFst.empty : MFst := ⟨[], none⟩

def numStates (t : MFst) : ℕ := t.states.length

/-- Out-arc list of a state (empty for an out-of-range index). -/
def arcList (t : MFst) (s : ℕ) : List Arc :=
  ((t.states.get? s).map StateData.arcs).getD []

/-- Final weight of a state (`⊤` = non-final, also for an out-of-range
index, matching the sentinel table of the spec). -/
def finalWeightQ (t : MFst) (s : ℕ) : W :=
  ((t.states.get? s).map StateData.finalWeight).getD ⊤

def numArcsQ (t : MFst) (s : ℕ) : ℕ := (arcList t s).length

/-- `get_arcs`: copies `min(num_arcs, cap)` arcs and returns the true
count. -/
def getArcsQ (t : MFst) (s : ℕ) (cap : ℕ) : ℕ × List Arc :=
  (numArcsQ t s, (arcList t s).take cap)

/-- `add_state`: appends a fresh non-final state with empty arc list and
returns its index. -/
def addStateT (t : MFst) : MFst × ℕ :=
  (⟨t.states ++ [⟨⊤, []⟩], t.start⟩, t.states.length)

/-- `set_start`: records the start state; `INVALID_ARG` when out of range,
leaving the transducer unchanged. -/
def setStartT (t : MFst) (s : ℕ) : FstError × MFst :=
  if s < numStates t then (.ok, { t with start := some s }) else (.invalidArg, t)

/-- Replace the record of state `s`. -/
def setStateData (t : MFst) (s : ℕ) (d : StateData) : MFst :=
  { t with states := t.states.set s d }

/-- `set_final`: refuses `NaN` weights and out-of-range states with
`INVALID_ARG` (input unchanged); otherwise records the weight
(`⊤` marks non-final). -/
def setFinalT (t : MFst) (s : ℕ) (w : FDouble) : FstError × MFst :=
  match w with
  | .nan => (.invalidArg, t)
  | .val w =>
    match t.states.get? s with
    | none => (.invalidArg, t)
    | some d => (.ok, setStateData t s { d with finalWeight := w })

/-- `add_arc`: refuses `NaN` weights and out-of-range `src`/`dst` with
`INVALID_ARG` (input unchanged); otherwise appends to `src`'s arc list. -/
def addArcT (t : MFst) (src il ol : ℕ) (w : FDouble) (dst : ℕ) :
    FstError × MFst :=
  match w with
  | .nan => (.invalidArg, t)
  | .val w =>
    if dst < numStates t then
      match t.states.get? src with
      | none => (.invalidArg, t)
      | some d => (.ok, setStateData t src { d with arcs := d.arcs ++ [⟨il, ol, w, dst⟩] })
    else (.invalidArg, t)

/-- `invert`: swap input and output labels of every arc, in place. -/
def invertT (t : MFst) : MFst :=
  { t with states := t.states.map fun d =>
      { d with arcs := d.arcs.map fun a => ⟨a.olabel, a.ilabel, a.weight, a.nextstate⟩ } }

/-- `project`: copy one label side onto the other (`0` = keep input,
`1` = keep output), in place. -/
def projectT (t : MFst) (side : ℕ) : MFst :=
  { t with states := t.states.map fun d =>
      { d with arcs := d.arcs.map fun a =>
          if side = 0 then ⟨a.ilabel, a.ilabel, a.weight, a.nextstate⟩
          else ⟨a.olabel, a.olabel, a.weight, a.nextstate⟩ } }

/-! ## The canonical arc order imposed by freeze -/

/-- The total order `(ilabel, olabel, nextstate, weight)` ascending used by
`fst_freeze` to canonicalise arc lists. -/
def arcLe (a b : Arc) : Prop :=
  a.ilabel < b.ilabel ∨ (a.ilabel = b.ilabel ∧
    (a.olabel < b.olabel ∨ (a.olabel = b.olabel ∧
      (a.nextstate < b.nextstate ∨ (a.nextstate = b.nextstate ∧
        a.weight ≤ b.weight)))))

instance : DecidableRel arcLe := fun a b => by unfold arcLe; infer_instance

instance : IsTotal Arc arcLe := by
  constructor
  intro a b
  unfold arcLe
  rcases lt_trichotomy a.ilabel b.ilabel with h | h | h
  · exact Or.inl (Or.inl h)
  · rcases lt_trichotomy a.olabel b.olabel with h2 | h2 | h2
    · exact Or.inl (Or.inr ⟨h, Or.inl h2⟩)
    · rcases lt_trichotomy a.nextstate b.nextstate with h3 | h3 | h3
      · exact Or.inl (Or.inr ⟨h, Or.inr ⟨h2, Or.inl h3⟩⟩)
      · rcases le_total a.weight b.weight with h4 | h4
        · exact Or.inl (Or.inr ⟨h, Or.inr ⟨h2, Or.inr ⟨h3, h4⟩⟩⟩)
        · exact Or.inr (Or.inr ⟨h.symm, Or.inr ⟨h2.symm, Or.inr ⟨h3.symm, h4⟩⟩⟩)
      · exact Or.inr (Or.inr ⟨h.symm, Or.inr ⟨h2.symm, Or.inl h3⟩⟩)
    · exact Or.inr (Or.inr ⟨h.symm, Or.inl h2⟩)
  · exact Or.inr (Or.inl h)

instance : IsTrans Arc arcLe := by
  constructor
  intro a b c hab hbc
  unfold arcLe at *
  rcases hab with h1 | ⟨e1, h1⟩
  · rcases hbc with h2 | ⟨e2, _⟩
    · exact Or.inl (h1.trans h2)
    · exact Or.inl (e2 ▸ h1)
  · rcases hbc with h2 | ⟨e2, h2⟩
    · exact Or.inl (e1 ▸ h2)
    · refine Or.inr ⟨e1.trans e2, ?_⟩
      rcases h1 with h1 | ⟨f1, h1⟩
      · rcases h2 with h2 | ⟨f2, _⟩
        · exact Or.inl (h1.trans h2)
        · exact Or.inl (f2 ▸ h1)
      · rcases h2 with h2 | ⟨f2, h2⟩
        · exact Or.inl (f1 ▸ h2)
        · refine Or.inr ⟨f1.trans f2, ?_⟩
          rcases h1 with h1 | ⟨g1, h1⟩
          · rcases h2 with h2 | ⟨g2, _⟩
            · exact Or.inl (h1.trans h2)
            · exact Or.inl (g2 ▸ h1)
          · rcases h2 with h2 | ⟨g2, h2⟩
            · exact Or.inl (g1 ▸ h2)
            · exact Or.inr ⟨g1.trans g2, h1.trans h2⟩

/-- `freeze`: canonicalise every state's arc list by sorting it ascending by
`(ilabel, olabel, nextstate, weight)`; all observations are otherwise
identical to the mutable original. -/
def freezeT (t : MFst) : MFst :=
  { t with states := t.states.map fun d => { d with arcs := d.arcs.insertionSort arcLe } }

/-! ## String compiler and printer

Modelled from the spec: `compile_string(bytes)` produces a linear chain of
`len+1` states with arcs `(state i, byte[i], byte[i], 0, state i+1)`;
state `0` is start, state `len` is final with weight `0`.
`print_string` extracts the unique label sequence of a linear chain, or
returns `-1` when the transducer is not linear. -/

/-- States of the linear chain for the byte suffix `l`, the first of them
having index `i`. -/
def chainStates : List ℕ → ℕ → List StateData
  | [], _ => [⟨(0 : ℚ), []⟩]
  | b :: rest, i => ⟨⊤, [⟨b, b, (0 : ℚ), i + 1⟩]⟩ :: chainStates rest (i + 1)

/-- Modelled from the spec: `fst_compile_string` (implementation absent from
the repository; the header only declares it). -/
def fst_compile_string (bs : List ℕ) : MFst := ⟨chainStates bs 0, some 0⟩

/-- One step of the linear-chain walk of `print_string`: follows the unique
arc as long as it is a non-ε identity label, stops at a dead end that is
final, and fails (`none`) on any branching, ε or non-acceptor label, or when
the fuel runs out (a cycle). -/
def printAux (t : MFst) : ℕ → ℕ → Option (List ℕ)
  | 0, _ => none
  | fuel + 1, s =>
    match arcList t s with
    | [] => if finalWeightQ t s ≠ ⊤ then some [] else none
    | [a] =>
      if a.ilabel ≠ 0 ∧ a.olabel = a.ilabel then
        (printAux t fuel a.nextstate).map (a.ilabel :: ·)
      else none
    | _ :: _ :: _ => none

/-- Modelled from the spec: `fst_print_string` (implementation absent from
the repository).  Returns `-1` and writes nothing when the transducer is not
a linear chain; otherwise returns the true length and the bytes written
(`min(len, cap)` of them). -/
def fst_print_string (t : MFst) (cap : ℕ) : Int × List ℕ :=
  match t.start with
  | none => (-1, [])
  | some s0 =>
    match printAux t (numStates t) s0 with
    | none => (-1, [])
    | some l => ((l.length : Int), l.take cap)

/-! ## Handle registry

Modelled from the spec (§4.3, §6): a process-wide slot table mapping opaque
`u32` handles to owned objects of two kinds (mutable, frozen).  Freed slots
are tombstoned; slots are never recycled (one of the realizations the spec
explicitly allows).  Every API entry resolves its handle and returns the
kind-appropriate sentinel on a miss. -/

/-- A live registry object: a mutable or a frozen transducer. -/
inductive Obj where
  | mobj : MFst → Obj
  | fobj : MFst → Obj
deriving DecidableEq

/-- The handle registry: a slot table; a handle is a slot index. -/
structure Reg where
  slots : List (Option Obj)
deriving DecidableEq

/-- Resolve a handle to a live mutable transducer. -/
def findMut (r : Reg) (h : ℕ) : Option MFst :=
  match r.slots.get? h with
  | some (some (.mobj t)) => some t
  | _ => none

/-- Resolve a handle to a live frozen transducer. -/
def findFrz (r : Reg) (h : ℕ) : Option MFst :=
  match r.slots.get? h with
  | some (some (.fobj t)) => some t
  | _ => none

/-- Allocate a fresh slot for an object and return its handle. -/
def allocReg (r : Reg) (o : Obj) : Reg × ℕ :=
  (⟨r.slots ++ [some o]⟩, r.slots.length)

/-- Overwrite the object a (live) handle resolves to. -/
def updReg (r : Reg) (h : ℕ) (o : Obj) : Reg :=
  ⟨r.slots.set h (some o)⟩

/-- `fst_mutable_new`: allocate an empty mutable transducer. -/
def fst_mutable_new (r : Reg) : Reg × ℕ :=
  allocReg r (.mobj MFst.empty)

/-- `fst_mutable_free`: tombstone a live mutable slot; a no-op on any
handle that does not resolve to a live mutable transducer. -/
def fst_mutable_free (r : Reg) (h : ℕ) : Reg :=
  match findMut r h with
  | some _ => ⟨r.slots.set h none⟩
  | none => r

/-- `fst_free`: tombstone a live frozen slot; a no-op otherwise. -/
def fst_free (r : Reg) (h : ℕ) : Reg :=
  match findFrz r h with
  | some _ => ⟨r.slots.set h none⟩
  | none => r

/-- `fst_mutable_add_state`: returns the new state index, or `FST_NO_STATE`
on an invalid handle. -/
def fst_mutable_add_state (r : Reg) (h : ℕ) : Reg × ℕ :=
  match findMut r h with
  | none => (r, FST_NO_STATE)
  | some t => (updReg r h (.mobj (addStateT t).1), (addStateT t).2)

/-- `fst_mutable_set_start`: `INVALID_ARG` on an invalid handle or an
out-of-range state, writing back only on success. -/
def fst_mutable_set_start (r : Reg) (h s : ℕ) : Reg × FstError :=
  match findMut r h with
  | none => (r, .invalidArg)
  | some t =>
    match setStartT t s with
    | (.ok, t') => (updReg r h (.mobj t'), .ok)
    | (e, _) => (r, e)

/-- `fst_mutable_set_final`: `INVALID_ARG` on an invalid handle, a `NaN`
weight or an out-of-range state, writing back only on success. -/
def fst_mutable_set_final (r : Reg) (h s : ℕ) (w : FDouble) : Reg × FstError :=
  match findMut r h with
  | none => (r, .invalidArg)
  | some t =>
    match setFinalT t s w with
    | (.ok, t') => (updReg r h (.mobj t'), .ok)
    | (e, _) => (r, e)

/-- `fst_mutable_add_arc`: `INVALID_ARG` on an invalid handle, a `NaN`
weight or an out-of-range `src`/`dst`, writing back only on success. -/
def fst_mutable_add_arc (r : Reg) (h src il ol : ℕ) (w : FDouble) (dst : ℕ) :
    Reg × FstError :=
  match findMut r h with
  | none => (r, .invalidArg)
  | some t =>
    match addArcT t src il ol w dst with
    | (.ok, t') => (updReg r h (.mobj t'), .ok)
    | (e, _) => (r, e)

/-- `fst_mutable_start`: `FST_NO_STATE` on an invalid handle or when the
start is unset. -/
def fst_mutable_start (r : Reg) (h : ℕ) : ℕ :=
  match findMut r h with
  | none => FST_NO_STATE
  | some t => t.start.getD FST_NO_STATE

/-- `fst_mutable_num_states`: `0` on an invalid handle. -/
def fst_mutable_num_states (r : Reg) (h : ℕ) : ℕ :=
  match findMut r h with
  | none => 0
  | some t => numStates t

/-- `fst_mutable_num_arcs`: `0` on an invalid handle. -/
def fst_mutable_num_arcs (r : Reg) (h s : ℕ) : ℕ :=
  match findMut r h with
  | none => 0
  | some t => numArcsQ t s

/-- `fst_mutable_final_weight`: `+∞` on an invalid handle or a non-final
(or out-of-range) state. -/
def fst_mutable_final_weight (r : Reg) (h s : ℕ) : W :=
  match findMut r h with
  | none => ⊤
  | some t => finalWeightQ t s

/-- `fst_mutable_get_arcs`: returns the true count and the copied prefix;
`0` (and no bytes) on an invalid handle. -/
def fst_mutable_get_arcs (r : Reg) (h s cap : ℕ) : ℕ × List Arc :=
  match findMut r h with
  | none => (0, [])
  | some t => getArcsQ t s cap

/-- `fst_freeze`: allocates an independent frozen copy with canonical arc
order; `FST_INVALID_HANDLE` on an invalid handle. -/
def fst_freeze (r : Reg) (h : ℕ) : Reg × ℕ :=
  match findMut r h with
  | none => (r, FST_INVALID_HANDLE)
  | some t => allocReg r (.fobj (freezeT t))

/-- `fst_start` (frozen query). -/
def fst_start (r : Reg) (h : ℕ) : ℕ :=
  match findFrz r h with
  | none => FST_NO_STATE
  | some t => t.start.getD FST_NO_STATE

/-- `fst_num_states` (frozen query). -/
def fst_num_states (r : Reg) (h : ℕ) : ℕ :=
  match findFrz r h with
  | none => 0
  | some t => numStates t

/-- `fst_num_arcs` (frozen query). -/
def fst_num_arcs (r : Reg) (h s : ℕ) : ℕ :=
  match findFrz r h with
  | none => 0
  | some t => numArcsQ t s

/-- `fst_final_weight` (frozen query). -/
def fst_final_weight (r : Reg) (h s : ℕ) : W :=
  match findFrz r h with
  | none => ⊤
  | some t => finalWeightQ t s

/-- `fst_get_arcs` (frozen query). -/
def fst_get_arcs (r : Reg) (h s cap : ℕ) : ℕ × List Arc :=
  match findFrz r h with
  | none => (0, [])
  | some t => getArcsQ t s cap

/-- `fst_invert`: in-place label swap; a silent no-op on an invalid handle
(`void` return, so no error can be signalled). -/
def fst_invert (r : Reg) (h : ℕ) : Reg :=
  match findMut r h with
  | none => r
  | some t => updReg r h (.mobj (invertT t))

/-- `fst_project`: in-place projection; a silent no-op on an invalid
handle. -/
def fst_project (r : Reg) (h side : ℕ) : Reg :=
  match findMut r h with
  | none => r
  | some t => updReg r h (.mobj (projectT t side))

/-! ## Walk semantics

The language-level view of a transducer: walks are arc lists, a pair of
ε-free strings is recognised with the infimum weight over accepting walks
whose label projections (ε dropped) match. -/

/-- `IsWalk t s l u`: the arc list `l` can be traversed from state `s`,
ending in state `u`. -/
def IsWalk (t : MFst) : ℕ → List Arc → ℕ → Prop
  | s, [], u => s = u
  | s, a :: l, u => a ∈ arcList t s ∧ IsWalk t a.nextstate l u

/-- Input projection of a walk, ε labels dropped. -/
def inStr (l : List Arc) : List ℕ :=
  (l.map Arc.ilabel).filter (fun x => decide (x ≠ 0))

/-- Output projection of a walk, ε labels dropped. -/
def outStr (l : List Arc) : List ℕ :=
  (l.map Arc.olabel).filter (fun x => decide (x ≠ 0))

/-- Tropical weight (⊗-product = sum) of a walk's arcs. -/
def wgt (l : List Arc) : W := (l.map Arc.weight).sum

/-- End state of a walk starting at `s`. -/
def endOf : ℕ → List Arc → ℕ
  | s, [] => s
  | _, a :: l => endOf a.nextstate l

/-- Embed a tropical weight into `EReal` (for infima over walk sets). -/
def wE (w : W) : EReal := WithTop.recTopCoe ⊤ (fun q => ((q : ℝ) : EReal)) w

/-- The weight a transducer assigns to a pair of strings: the infimum over
accepting walks from the start whose ε-free projections are `(x, y)` of
walk weight ⊗ final weight. -/
noncomputable def pairWeight (t : MFst) (x y : List ℕ) : EReal :=
  sInf { v : EReal | ∃ s0 u l, t.start = some s0 ∧ IsWalk t s0 l u ∧
    inStr l = x ∧ outStr l = y ∧ v = wE (wgt l + finalWeightQ t u) }

/-! ## ε-removal

Modelled from the spec (§4.5): for each state `p` the ε-closure
`C(p)(q)` is the shortest tropical sum of ε:ε arcs from `p` to `q`;
the output keeps the state set, adds `(p, il, ol, w ⊗ w', r)` for every
closure entry `(q, w)` and non-ε:ε arc `(q, il, ol, w', r)`, folds closure
entries into final weights, and rejects negative-weight ε-cycles with
`INVALID_STATE`.  With no negative ε-cycle, ε-walks of length at most
`num_states` realise every shortest ε-distance, so the closure is computed
by bounded enumeration. -/

/-- An ε:ε arc (both labels are the reserved ε = 0). -/
def isEps (a : Arc) : Bool := a.ilabel == 0 && a.olabel == 0

/-- The ε:ε out-arcs of a state. -/
def epsArcs (t : MFst) (s : ℕ) : List Arc := (arcList t s).filter isEps

/-- All ε:ε walks from `s` with at most `k` arcs. -/
def epsWalks (t : MFst) : ℕ → ℕ → List (List Arc)
  | 0, _ => [[]]
  | k + 1, s =>
    [] :: (epsArcs t s).flatMap (fun a => (epsWalks t k a.nextstate).map (a :: ·))

/-- The enumerated ε:ε walks from `p` that end in `q`. -/
def epsWalksTo (t : MFst) (p q : ℕ) : List (List Arc) :=
  (epsWalks t (numStates t) p).filter (fun l => endOf p l == q)

/-- The ε-closure weight `C(p)(q)`: minimum over the enumerated ε-walk
weights (`⊤` when `q` is not ε-reachable). -/
def epsDist (t : MFst) (p q : ℕ) : W :=
  ((epsWalksTo t p q).map wgt).foldr min ⊤

/-- Detects a negative-weight ε:ε cycle (any negative ε-cycle shortens to
one of length ≤ `num_states`). -/
def hasNegEpsCycle (t : MFst) : Bool :=
  (List.range (numStates t)).any (fun p =>
    (epsWalks t (numStates t) p).any (fun l =>
      !l.isEmpty && endOf p l == p && decide (wgt l < 0)))

/-- The successful ε-removal output: same state set and start; state `p`
receives, for every closure entry `(q, w)` and non-ε:ε arc of `q`, that arc
with weight `w ⊗ w'`, and as final weight the ⊕ over closure entries of
`w ⊗ finalWeight(q)`. -/
def rmCore (t : MFst) : MFst :=
  { start := t.start
    states := (List.range (numStates t)).map fun p =>
      { finalWeight := ((List.range (numStates t)).map
          (fun q => epsDist t p q + finalWeightQ t q)).foldr min ⊤
        arcs := (List.range (numStates t)).flatMap fun q =>
          if epsDist t p q = ⊤ then []
          else ((arcList t q).filter (fun a => !(isEps a))).map
            (fun a => ⟨a.ilabel, a.olabel, epsDist t p q + a.weight, a.nextstate⟩) } }

/-- Modelled from the spec: the core of `fst_rm_epsilon` (spec §4.5;
implementation absent from the repository). -/
def rmEpsilonT (t : MFst) : Option MFst :=
  if hasNegEpsCycle t then none else some (rmCore t)

/-- `t` contains no negative-weight cycle of ε:ε arcs. -/
def NoNegEps (t : MFst) : Prop :=
  ¬ ∃ p c, c ≠ [] ∧ IsWalk t p c p ∧ (∀ a ∈ c, isEps a = true) ∧ wgt c < 0

/-! ## Determinization

Modelled from the spec (§4.7): weighted subset construction with residual
weights; output labels processed in lockstep (failure when two moves on one
input label disagree on output), common divisor extracted by ⊕ = min,
subsets canonicalised sorted-by-state and hash-consed; fails on
non-functional input or unbounded residual divergence (fuel bound). -/

/-- Insert a weighted state into a canonical subset (sorted by state id,
duplicates merged with ⊕ = min). -/
def insertPair : ℕ × W → List (ℕ × W) → List (ℕ × W)
  | p, [] => [p]
  | p, q :: rest =>
    if p.1 < q.1 then p :: q :: rest
    else if p.1 = q.1 then (q.1, min p.2 q.2) :: rest
    else q :: insertPair p rest

/-- Canonicalise a list of weighted states. -/
def canonSubset (l : List (ℕ × W)) : List (ℕ × W) := l.foldr insertPair []

/-- Tropical residual division (subtract the common divisor). -/
def wSub (a b : W) : W :=
  WithTop.recTopCoe ⊤ (fun qa => WithTop.recTopCoe ⊤ (fun qb => ((qa - qb : ℚ) : W)) b) a

/-- All `(olabel, accumulated weight, target)` moves of a subset on an
input label. -/
def subsetMoves (t : MFst) (S : List (ℕ × W)) (i : ℕ) : List (ℕ × W × ℕ) :=
  S.flatMap fun qr => ((arcList t qr.1).filter (fun a => a.ilabel == i)).map
    (fun a => (a.olabel, qr.2 + a.weight, a.nextstate))

/-- The input labels leaving a subset. -/
def subsetLabels (t : MFst) (S : List (ℕ × W)) : List ℕ :=
  (S.flatMap fun qr => (arcList t qr.1).map Arc.ilabel).dedup

/-- Subset final weight: ⊕ over `(q, r)` of `r ⊗ finalWeight(q)`. -/
def subsetFinal (t : MFst) (S : List (ℕ × W)) : W :=
  (S.map (fun qr => qr.2 + finalWeightQ t qr.1)).foldr min ⊤

/-- Process all input labels of one subset: extends the discovered-subset
list and returns the out-arcs of the corresponding output state; `none`
when some label's moves disagree on the output label (non-functional). -/
def detArcsOf (t : MFst) (S : List (ℕ × W)) (subs : List (List (ℕ × W))) :
    Option (List (List (ℕ × W)) × List Arc) :=
  (subsetLabels t S).foldl
    (fun acc i =>
      match acc with
      | none => none
      | some (subs, arcs) =>
        let moves := subsetMoves t S i
        match moves with
        | [] => some (subs, arcs)
        | _ :: _ =>
          let olabels := (moves.map (fun m => m.1)).dedup
          if 2 ≤ olabels.length then none
          else
            let o := olabels.getD 0 0
            let w0 := (moves.map (fun m => m.2.1)).foldr min ⊤
            let S' := canonSubset (moves.map fun m => (m.2.2, wSub m.2.1 w0))
            match subs.findIdx? (fun s => s == S') with
            | some j => some (subs, arcs ++ [⟨i, o, w0, j⟩])
            | none => some (subs ++ [S'], arcs ++ [⟨i, o, w0, subs.length⟩]))
    (some (subs, []))

/-- Worklist exploration of subsets from index `idx`, bounded by `fuel`. -/
def detStep (t : MFst) : ℕ → List (List (ℕ × W)) → ℕ →
    Option (List (List (ℕ × W)) × List (List Arc))
  | 0, _, _ => none
  | fuel + 1, subs, idx =>
    if idx < subs.length then
      match detArcsOf t (subs.getD idx []) subs with
      | none => none
      | some (subs', arcs) =>
        match detStep t fuel subs' (idx + 1) with
        | none => none
        | some (finalSubs, rest) => some (finalSubs, arcs :: rest)
    else some (subs, [])

/-- Modelled from the spec: the core of `fst_determinize` (spec §4.7;
implementation absent from the repository). -/
def determinizeT (t : MFst) : Option MFst :=
  match t.start with
  | none => some ⟨[], none⟩
  | some s0 =>
    match detStep t (2 ^ (numStates t + 4)) [[(s0, (0 : W))]] 0 with
    | none => none
    | some (subs, arcTables) =>
      some ⟨(List.zip subs arcTables).map (fun p => ⟨subsetFinal t p.1, p.2⟩), some 0⟩

/-! ## Minimization

Modelled from the spec (§4.8): requires a deterministic, ε-free input
(`INVALID_STATE` otherwise); partition refinement starting from
final-weight classes, refining by outgoing signature until stable
(`num_states + 1` rounds always suffice), collapsing each class to the
state with the lowest original id. -/

/-- Input-determinism check: each state's input labels are distinct. -/
def isIDet (t : MFst) : Bool :=
  (List.range (numStates t)).all fun s =>
    decide (((arcList t s).map Arc.ilabel).Nodup)

/-- ε-freeness check for minimization: no input-ε arcs. -/
def isEpsFree (t : MFst) : Bool :=
  (List.range (numStates t)).all fun s =>
    (arcList t s).all fun a => !(a.ilabel == 0)

/-- Initial partition: classes of equal final weight. -/
def initPart (t : MFst) : List ℕ :=
  let fws := ((List.range (numStates t)).map (finalWeightQ t)).dedup
  (List.range (numStates t)).map fun s => fws.indexOf (finalWeightQ t s)

instance : DecidableEq (ℕ × ℕ × W × ℕ) := inferInstance

instance : DecidableEq (List (ℕ × ℕ × W × ℕ)) := inferInstance

/-- Refinement signature of a state: its class and its outgoing
`(input, output, weight, target class)` list. -/
def stateSig (t : MFst) (part : List ℕ) (s : ℕ) : ℕ × List (ℕ × ℕ × W × ℕ) :=
  (part.getD s 0,
    (arcList t s).map fun a => (a.ilabel, a.olabel, a.weight, part.getD a.nextstate 0))

/-- One refinement round. -/
def refinePart (t : MFst) (part : List ℕ) : List ℕ :=
  let sigs := ((List.range (numStates t)).map (stateSig t part)).dedup
  (List.range (numStates t)).map fun s => sigs.indexOf (stateSig t part s)

/-- Iterated refinement. -/
def iterRefine (t : MFst) : ℕ → List ℕ → List ℕ
  | 0, part => part
  | k + 1, part => iterRefine t k (refinePart t part)

/-- The stable partition. -/
def minPart (t : MFst) : List ℕ := iterRefine t (numStates t + 1) (initPart t)

/-- Collapse each class to its lowest-id representative and re-emit arcs
with class-representative targets. -/
def minCore (t : MFst) : MFst :=
  let part := minPart t
  let nc := part.dedup.length
  ⟨(List.range nc).map fun c =>
      let s := part.indexOf c
      ⟨finalWeightQ t s,
        (arcList t s).map fun a => ⟨a.ilabel, a.olabel, a.weight, part.getD a.nextstate 0⟩⟩,
    t.start.map (fun s0 => part.getD s0 0)⟩

/-- Modelled from the spec: the core of `fst_minimize` (spec §4.8;
implementation absent from the repository). -/
def minimizeT (t : MFst) : Option MFst :=
  if isIDet t && isEpsFree t then some (minCore t) else none

/-! ## n-shortest paths

Modelled from the spec (§4.9): requires non-negative weights
(`INVALID_STATE` otherwise); computes the N best accepting paths (final
weight added at pop time); for N = 1 emits a single linear chain, for
N > 1 the union of N chains reached from a fresh start by ε:ε arcs of
weight 0.  With non-negative weights the N best path weights are realised
by walks of at most `(N + 2) · num_states` arcs, so the model extracts
them from a bounded enumeration. -/

/-- All walks from `s` with at most `k` arcs. -/
def allWalks (t : MFst) : ℕ → ℕ → List (List Arc)
  | 0, _ => [[]]
  | k + 1, s =>
    [] :: (arcList t s).flatMap (fun a => (allWalks t k a.nextstate).map (a :: ·))

/-- The accepting walks from the start with at most `bound` arcs (each walk
listed once). -/
def accWalks (t : MFst) (bound : ℕ) : List (List Arc) :=
  match t.start with
  | none => []
  | some s0 =>
    ((allWalks t bound s0).filter
      (fun l => !(finalWeightQ t (endOf s0 l) == (⊤ : W)))).dedup

/-- Total weight of an accepting walk: arc sum ⊗ final weight. -/
def pathW (t : MFst) (l : List Arc) : W :=
  match t.start with
  | none => ⊤
  | some s0 => wgt l + finalWeightQ t (endOf s0 l)

/-- Order on walks by total weight. -/
def walkLe (t : MFst) (l1 l2 : List Arc) : Prop := pathW t l1 ≤ pathW t l2

instance (t : MFst) : DecidableRel (walkLe t) := fun l1 l2 => by
  unfold walkLe; infer_instance

instance (t : MFst) : IsTotal (List Arc) (walkLe t) :=
  ⟨fun l1 l2 => le_total (pathW t l1) (pathW t l2)⟩

instance (t : MFst) : IsTrans (List Arc) (walkLe t) :=
  ⟨fun _ _ _ h1 h2 => le_trans h1 h2⟩

/-- Negative arc-weight check. -/
def hasNegArc (t : MFst) : Bool :=
  (List.range (numStates t)).any fun s =>
    (arcList t s).any fun a => decide (a.weight < 0)

/-- The bounded accepting walks sorted by non-decreasing total weight. -/
def wsL (t : MFst) (n : ℕ) : List (List Arc) :=
  (accWalks t ((n + 2) * numStates t)).insertionSort (walkLe t)

/-- The N best accepting walks, by non-decreasing total weight. -/
def nBest (t : MFst) (n : ℕ) : List (List Arc) := (wsL t n).take n

/-- A linear chain replaying the arcs of `l`; the first chain state has
index `base`, the last carries final weight `fw`. -/
def chainOf : List Arc → W → ℕ → List StateData
  | [], fw, _ => [⟨fw, []⟩]
  | a :: rest, fw, base =>
    ⟨⊤, [⟨a.ilabel, a.olabel, a.weight, base + 1⟩]⟩ :: chainOf rest fw (base + 1)

/-- Chains for the listed `(walk, final weight)` pairs laid out
consecutively from index `base`. -/
def chainsFrom : List (List Arc × W) → ℕ → List StateData
  | [], _ => []
  | (l, fw) :: rest, base => chainOf l fw base ++ chainsFrom rest (base + (l.length + 1))

/-- The ε:ε weight-0 arcs from the fresh start to each chain. -/
def unionStarts : List (List Arc × W) → ℕ → List Arc
  | [], _ => []
  | (l, _) :: rest, base => ⟨0, 0, ((0 : ℚ) : W), base⟩ :: unionStarts rest (base + (l.length + 1))

/-- The union-of-chains output transducer for N > 1. -/
def spUnion (ps : List (List Arc × W)) : MFst :=
  ⟨⟨⊤, unionStarts ps 1⟩ :: chainsFrom ps 1, some 0⟩

/-- An accepting walk: from the start state to a final state. -/
def Accepting (t : MFst) (l : List Arc) : Prop :=
  ∃ s0, t.start = some s0 ∧ IsWalk t s0 l (endOf s0 l) ∧
    finalWeightQ t (endOf s0 l) ≠ ⊤

/-- The arcs of the linear chain replaying `l` from state `base`. -/
def chainArcs : List Arc → ℕ → List Arc
  | [], _ => []
  | a :: rest, base => ⟨a.ilabel, a.olabel, a.weight, base + 1⟩ :: chainArcs rest (base + 1)

/-- Index offset of the `i`-th chain inside `chainsFrom`. -/
def chainOffset : List (List Arc × W) → ℕ → ℕ
  | [], _ => 0
  | _ :: _, 0 => 0
  | (l, _) :: rest, i + 1 => (l.length + 1) + chainOffset rest i

/-- The expected accepting walks of the union-of-chains output. -/
def unionWalks : List (List Arc × W) → ℕ → List (List Arc)
  | [], _ => []
  | (l, _) :: rest, base =>
    (⟨0, 0, ((0 : ℚ) : W), base⟩ :: chainArcs l base) :: unionWalks rest (base + (l.length + 1))

/-- Modelled from the spec: the core of `fst_shortest_path` (spec §4.9;
implementation absent from the repository). -/
def shortestPathT (t : MFst) (n : ℕ) : Option MFst :=
  if hasNegArc t then none
  else
    match t.start with
    | none => none
    | some s0 =>
      if n = 1 then
        match nBest t n with
        | [] => none
        | l :: _ => some ⟨chainOf l (finalWeightQ t (endOf s0 l)) 0, some 0⟩
      else some (spUnion ((nBest t n).map fun l => (l, finalWeightQ t (endOf s0 l))))

/-! ## Optimize -/

/-- Modelled from the spec: the `fst_optimize` pipeline (spec §4.13;
implementation absent from the repository): rm-ε, then determinize, then
minimize; a failing determinize or minimize yields the last successful
intermediate, a failing rm-ε is fatal. -/
def optimizeT (t : MFst) : Option MFst :=
  match rmEpsilonT t with
  | none => none
  | some t1 =>
    match determinizeT t1 with
    | none => some t1
    | some t2 =>
      match minimizeT t2 with
      | none => some t2
      | some t3 => some t3

/-! ## Registry wrappers for the operations -/

/-- `fst_rm_epsilon`: fresh mutable result; `FST_INVALID_HANDLE` on an
invalid handle or a negative ε-cycle (the INVALID_STATE category). -/
def fst_rm_epsilon (r : Reg) (h : ℕ) : Reg × ℕ :=
  match findMut r h with
  | none => (r, FST_INVALID_HANDLE)
  | some t =>
    match rmEpsilonT t with
    | none => (r, FST_INVALID_HANDLE)
    | some t' => allocReg r (.mobj t')

/-- `fst_determinize`: fresh mutable result; `FST_INVALID_HANDLE` on an
invalid handle or a non-determinizable input. -/
def fst_determinize (r : Reg) (h : ℕ) : Reg × ℕ :=
  match findMut r h with
  | none => (r, FST_INVALID_HANDLE)
  | some t =>
    match determinizeT t with
    | none => (r, FST_INVALID_HANDLE)
    | some t' => allocReg r (.mobj t')

/-- `fst_minimize`: in place; `INVALID_ARG` on an invalid handle,
`INVALID_STATE` on a non-deterministic or non-ε-free input. -/
def fst_minimize (r : Reg) (h : ℕ) : Reg × FstError :=
  match findMut r h with
  | none => (r, .invalidArg)
  | some t =>
    match minimizeT t with
    | none => (r, .invalidState)
    | some t' => (updReg r h (.mobj t'), .ok)

/-- `fst_shortest_path`: fresh mutable result; `FST_INVALID_HANDLE` on an
invalid handle or negative weights. -/
def fst_shortest_path (r : Reg) (h n : ℕ) : Reg × ℕ :=
  match findMut r h with
  | none => (r, FST_INVALID_HANDLE)
  | some t =>
    match shortestPathT t n with
    | none => (r, FST_INVALID_HANDLE)
    | some t' => allocReg r (.mobj t')

/-- `fst_optimize`: fresh mutable result; `FST_INVALID_HANDLE` on an
invalid handle or when rm-ε fails. -/
def fst_optimize (r : Reg) (h : ℕ) : Reg × ℕ :=
  match findMut r h with
  | none => (r, FST_INVALID_HANDLE)
  | some t =>
    match optimizeT t with
    | none => (r, FST_INVALID_HANDLE)
    | some t' => allocReg r (.mobj t')

/-! ## Lemmas on the compiled chain -/

theorem chainStates_length (l : List ℕ) (i : ℕ) :
    (chainStates l i).length = l.length + 1 := by
  induction l generalizing i with
  | nil => rfl
  | cons b rest ih => simp [chainStates, ih]

theorem chainStates_get (l : List ℕ) (i j : ℕ) :
    (chainStates l i)[j]? =
      if h : j < l.length then
        some ⟨⊤, [⟨l.get ⟨j, h⟩, l.get ⟨j, h⟩, (0 : ℚ), i + j + 1⟩]⟩
      else if j = l.length then some ⟨((0 : ℚ) : W), []⟩ else none := by
  induction l generalizing i j with
  | nil =>
    cases j with
    | zero => simp [chainStates]
    | succ k => simp [chainStates]
  | cons b rest ih =>
    cases j with
    | zero =>
      rw [dif_pos (by simp)]
      simp [chainStates, List.get]
    | succ k =>
      have hstep : (chainStates (b :: rest) i)[k + 1]? =
          (chainStates rest (i + 1))[k]? := by simp [chainStates]
      rw [hstep, ih]
      by_cases h : k < rest.length
      · rw [dif_pos h, dif_pos (by simpa using Nat.succ_lt_succ h)]
        have harith : i + 1 + k + 1 = i + (k + 1) + 1 := by omega
        simp [harith, List.get]
      · rw [dif_neg h, dif_neg (by simpa using fun hh => h (Nat.lt_of_succ_lt_succ hh))]
        by_cases he : k = rest.length
        · rw [if_pos he, if_pos (by simpa using he)]
        · rw [if_neg he, if_neg (by simpa using he)]

theorem compile_numStates (bs : List ℕ) :
    numStates (fst_compile_string bs) = bs.length + 1 := by
  simp [numStates, fst_compile_string, chainStates_length]

theorem compile_start (bs : List ℕ) : (fst_compile_string bs).start = some 0 := rfl

theorem compile_arcList (bs : List ℕ) (i : ℕ) (h : i < bs.length) :
    arcList (fst_compile_string bs) i =
      [⟨bs.get ⟨i, h⟩, bs.get ⟨i, h⟩, (0 : ℚ), i + 1⟩] := by
  simp only [arcList, fst_compile_string, List.get?_eq_getElem?, chainStates_get, dif_pos h]
  simp

theorem compile_arcList_end (bs : List ℕ) :
    arcList (fst_compile_string bs) bs.length = [] := by
  simp [arcList, fst_compile_string, chainStates_get]

theorem compile_finalWeight_end (bs : List ℕ) :
    finalWeightQ (fst_compile_string bs) bs.length = ((0 : ℚ) : W) := by
  simp [finalWeightQ, fst_compile_string, chainStates_get]

theorem compile_finalWeight_mid (bs : List ℕ) (i : ℕ) (h : i < bs.length) :
    finalWeightQ (fst_compile_string bs) i = ⊤ := by
  simp only [finalWeightQ, fst_compile_string, List.get?_eq_getElem?, chainStates_get, dif_pos h]
  rfl

theorem printAux_nilArcs (t : MFst) (fuel s : ℕ) (h : arcList t s = [])
    (hf : finalWeightQ t s ≠ ⊤) : printAux t (fuel + 1) s = some [] := by
  rw [printAux, h]
  simp [hf]

theorem printAux_oneArc (t : MFst) (fuel s : ℕ) (a : Arc) (h : arcList t s = [a])
    (h1 : a.ilabel ≠ 0) (h2 : a.olabel = a.ilabel) :
    printAux t (fuel + 1) s = (printAux t fuel a.nextstate).map (a.ilabel :: ·) := by
  rw [printAux, h]
  simp [h1, h2]

theorem compile_printAux (bs : List ℕ) (hz : ∀ b ∈ bs, b ≠ 0) :
    ∀ (fuel k : ℕ), k ≤ bs.length → bs.length - k < fuel →
      printAux (fst_compile_string bs) fuel k = some (bs.drop k) := by
  intro fuel
  induction fuel with
  | zero => intro k _ h; omega
  | succ n ih =>
    intro k hk hfuel
    rcases Nat.lt_or_ge k bs.length with h | h
    · have hb : bs.get ⟨k, h⟩ ≠ 0 := hz _ (bs.get_mem k h)
      rw [printAux_oneArc _ _ _ _ (compile_arcList bs k h) hb rfl]
      rw [ih (k + 1) h (by omega)]
      show some (bs.get ⟨k, h⟩ :: bs.drop (k + 1)) = some (bs.drop k)
      rw [List.get_cons_drop]
    · have hke : k = bs.length := le_antisymm hk h
      subst hke
      rw [printAux_nilArcs _ _ _ (compile_arcList_end bs)
        (by rw [compile_finalWeight_end bs]; exact WithTop.coe_ne_top)]
      simp

theorem compile_print (bs : List ℕ) (cap : ℕ) (hz : ∀ b ∈ bs, b ≠ 0)
    (hcap : bs.length ≤ cap) :
    fst_print_string (fst_compile_string bs) cap = ((bs.length : Int), bs) := by
  rw [fst_print_string, compile_start]
  have := compile_printAux bs hz (numStates (fst_compile_string bs)) 0
    (Nat.zero_le _) (by rw [compile_numStates]; omega)
  simp only [this, List.drop_zero]
  rw [List.take_of_length_le hcap]

/-- C1, counterexample to the claim as stated: the byte string `[0]`
(a single `NUL` byte) compiles to a chain whose only arc carries the ε
label `0`, so `fst_print_string` reports a non-linear transducer (`-1`)
instead of returning length `1` with buffer `[0]`. -/
theorem claim_C1_cex :
    fst_print_string (fst_compile_string [0]) 1 ≠ ((1 : Int), [0]) := by decide

/-- C1 (amended): `fst_compile_string bs` is the linear chain with
`|bs| + 1` states, arc `(i, bs[i], bs[i], 0, i+1)` at every `i < |bs|`,
start state `0` and state `|bs|` final with weight `0`; and whenever `bs`
contains no `0` byte (the reserved ε label, on which `fst_print_string`
reports non-linearity), printing into a buffer of capacity `≥ |bs|`
returns `|bs|` and writes exactly the bytes of `bs`. -/
theorem claim_C1 (bs : List ℕ) (cap : ℕ) :
    numStates (fst_compile_string bs) = bs.length + 1 ∧
    (∀ i (h : i < bs.length),
      arcList (fst_compile_string bs) i =
        [⟨bs.get ⟨i, h⟩, bs.get ⟨i, h⟩, (0 : ℚ), i + 1⟩]) ∧
    (fst_compile_string bs).start = some 0 ∧
    finalWeightQ (fst_compile_string bs) bs.length = ((0 : ℚ) : W) ∧
    ((∀ b ∈ bs, b ≠ 0) → bs.length ≤ cap →
      fst_print_string (fst_compile_string bs) cap = ((bs.length : Int), bs)) :=
  ⟨compile_numStates bs, compile_arcList bs, compile_start bs,
    compile_finalWeight_end bs, fun hz hcap => compile_print bs cap hz hcap⟩

/-- C1, witness: the concrete scenario of the spec, `bs = "abc"`. -/
theorem claim_C1_witness :
    numStates (fst_compile_string [97, 98, 99]) = 4 ∧
    fst_print_string (fst_compile_string [97, 98, 99]) 3 = ((3 : Int), [97, 98, 99]) :=
  ⟨(claim_C1 [97, 98, 99] 3).1,
    (claim_C1 [97, 98, 99] 3).2.2.2.2 (by decide) (by decide)⟩

/-! ## Registry lemmas -/

theorem findMut_get (r : Reg) (h : ℕ) (t : MFst) (hres : findMut r h = some t) :
    r.slots.get? h = some (some (.mobj t)) := by
  unfold findMut at hres
  rcases hg : r.slots.get? h with _ | o
  · rw [hg] at hres; exact absurd hres (by simp)
  · rcases o with _ | o
    · rw [hg] at hres; exact absurd hres (by simp)
    · rcases o with t' | t'
      · rw [hg] at hres; simp at hres; rw [hres]
      · rw [hg] at hres; exact absurd hres (by simp)

theorem findMut_lt (r : Reg) (h : ℕ) (t : MFst) (hres : findMut r h = some t) :
    h < r.slots.length :=
  List.get?_eq_some.mp (findMut_get r h t hres) |>.1

theorem set_of_get? {α : Type} (l : List α) :
    ∀ (n : ℕ) (a : α), l.get? n = some a → l.set n a = l := by
  induction l with
  | nil => intro n a hn; simp at hn
  | cons x xs ih =>
    intro n a hn
    cases n with
    | zero => simp at hn; simp [hn]
    | succ m =>
      simp only [List.set_cons_succ, List.cons.injEq, true_and]
      exact ih m a hn

theorem findMut_updReg_self (r : Reg) (h : ℕ) (t t' : MFst)
    (hres : findMut r h = some t) :
    findMut (updReg r h (.mobj t')) h = some t' := by
  have hlt := findMut_lt r h t hres
  unfold findMut updReg
  rw [List.get?_set_eq_of_lt _ hlt]

theorem updReg_get_ne (r : Reg) (h : ℕ) (o : Obj) (h' : ℕ) (hne : h' ≠ h) :
    (updReg r h o).slots.get? h' = r.slots.get? h' :=
  List.get?_set_ne _ _ (fun he => hne he.symm)

theorem invertT_invertT (t : MFst) : invertT (invertT t) = t := by
  cases t with
  | mk states start =>
    unfold invertT
    simp only [List.map_map]
    congr 1
    refine List.map_id'' ?_ states
    intro d
    cases d with
    | mk fw arcs =>
      simp only [Function.comp]
      congr 1
      simp only [List.map_map]
      refine List.map_id'' ?_ arcs
      intro a
      cases a
      rfl

/-- C8: from any live mutable handle, inverting twice restores the
transducer (labels, weights, targets, start) and in fact the whole registry
state. -/
theorem claim_C8 (r : Reg) (h : ℕ) (t : MFst) (hres : findMut r h = some t) :
    invertT (invertT t) = t ∧ fst_invert (fst_invert r h) h = r := by
  refine ⟨invertT_invertT t, ?_⟩
  have h1 : fst_invert r h = updReg r h (.mobj (invertT t)) := by
    unfold fst_invert
    rw [hres]
  have h2 : findMut (updReg r h (.mobj (invertT t))) h = some (invertT t) :=
    findMut_updReg_self r h t (invertT t) hres
  rw [h1]
  unfold fst_invert
  simp only [h2, invertT_invertT]
  unfold updReg
  simp only [List.set_set]
  have hset := set_of_get? r.slots h _ (findMut_get r h t hres)
  rw [hset]

/-- C8, witness: a one-arc transducer under handle `0`. -/
theorem claim_C8_witness :
    invertT (invertT ⟨[⟨(0 : ℚ), [⟨1, 2, (3 : ℚ), 0⟩]⟩], some 0⟩) =
      ⟨[⟨(0 : ℚ), [⟨1, 2, (3 : ℚ), 0⟩]⟩], some 0⟩ ∧
    fst_invert (fst_invert ⟨[some (.mobj ⟨[⟨(0 : ℚ), [⟨1, 2, (3 : ℚ), 0⟩]⟩], some 0⟩)]⟩ 0) 0 =
      ⟨[some (.mobj ⟨[⟨(0 : ℚ), [⟨1, 2, (3 : ℚ), 0⟩]⟩], some 0⟩)]⟩ :=
  claim_C8 _ 0 _ rfl

/-- C5: on a live mutable handle, `set_final` and `add_arc` refuse a `NaN`
weight with `INVALID_ARG`, `set_start` and `add_arc` refuse an out-of-range
state index with `INVALID_ARG`, and in every such case the registry (hence
the transducer) is completely unchanged. -/
theorem claim_C5 (r : Reg) (h : ℕ) (t : MFst) (hres : findMut r h = some t) :
    (∀ s, fst_mutable_set_final r h s .nan = (r, .invalidArg)) ∧
    (∀ src il ol dst, fst_mutable_add_arc r h src il ol .nan dst = (r, .invalidArg)) ∧
    (∀ s, numStates t ≤ s → fst_mutable_set_start r h s = (r, .invalidArg)) ∧
    (∀ src il ol w dst, numStates t ≤ src →
      fst_mutable_add_arc r h src il ol w dst = (r, .invalidArg)) ∧
    (∀ src il ol w dst, numStates t ≤ dst →
      fst_mutable_add_arc r h src il ol w dst = (r, .invalidArg)) := by
  refine ⟨fun s => ?_, fun src il ol dst => ?_, fun s hs => ?_,
    fun src il ol w dst hs => ?_, fun src il ol w dst hs => ?_⟩
  · unfold fst_mutable_set_final
    rw [hres]
    rfl
  · unfold fst_mutable_add_arc
    rw [hres]
    rfl
  · have hset : setStartT t s = (.invalidArg, t) := by
      unfold setStartT
      rw [if_neg (Nat.not_lt.mpr hs)]
    simp only [fst_mutable_set_start, hres, hset]
  · have haa : addArcT t src il ol w dst = (.invalidArg, t) := by
      cases w with
      | nan => rfl
      | val w =>
        simp only [addArcT]
        have hget : t.states.get? src = none := List.get?_eq_none.mpr hs
        by_cases hdst : dst < numStates t
        · rw [if_pos hdst, hget]
        · rw [if_neg hdst]
    simp only [fst_mutable_add_arc, hres, haa]
  · have haa : addArcT t src il ol w dst = (.invalidArg, t) := by
      cases w with
      | nan => rfl
      | val w =>
        simp only [addArcT]
        rw [if_neg (Nat.not_lt.mpr hs)]
    simp only [fst_mutable_add_arc, hres, haa]

/-- C5, witness: the single-slot registry holding the empty transducer. -/
theorem claim_C5_witness :
    fst_mutable_set_final ⟨[some (.mobj MFst.empty)]⟩ 0 0 .nan =
      (⟨[some (.mobj MFst.empty)]⟩, .invalidArg) ∧
    fst_mutable_set_start ⟨[some (.mobj MFst.empty)]⟩ 0 0 =
      (⟨[some (.mobj MFst.empty)]⟩, .invalidArg) :=
  ⟨(claim_C5 ⟨[some (.mobj MFst.empty)]⟩ 0 MFst.empty rfl).1 0,
    (claim_C5 ⟨[some (.mobj MFst.empty)]⟩ 0 MFst.empty rfl).2.2.1 0 (Nat.zero_le 0)⟩

/-- C9: on any handle that does not resolve to a live object of the
required kind, the `void`-returning calls `fst_mutable_free`, `fst_free`,
`fst_invert` and `fst_project` leave the registry (hence every live
transducer) entirely unchanged — no error can be reported — and freeing the
same mutable handle twice is harmless. -/
theorem claim_C9 (r : Reg) (h : ℕ) :
    (findMut r h = none →
      fst_mutable_free r h = r ∧ fst_invert r h = r ∧ ∀ side, fst_project r h side = r) ∧
    (findFrz r h = none → fst_free r h = r) ∧
    fst_mutable_free (fst_mutable_free r h) h = fst_mutable_free r h := by
  refine ⟨fun hm => ⟨?_, ?_, fun side => ?_⟩, fun hf => ?_, ?_⟩
  · unfold fst_mutable_free
    rw [hm]
  · unfold fst_invert
    rw [hm]
  · unfold fst_project
    rw [hm]
  · unfold fst_free
    rw [hf]
  · rcases hm : findMut r h with _ | t
    · simp only [fst_mutable_free, hm]
    · have hfree : fst_mutable_free r h = ⟨r.slots.set h none⟩ := by
        unfold fst_mutable_free
        rw [hm]
      have hlt := findMut_lt r h t hm
      have hnone : findMut (⟨r.slots.set h none⟩ : Reg) h = none := by
        unfold findMut
        rw [List.get?_set_eq_of_lt _ hlt]
      rw [hfree]
      simp only [fst_mutable_free, hnone]

/-- C9, witness: handle `3` resolves to nothing in the empty registry. -/
theorem claim_C9_witness :
    fst_mutable_free ⟨[]⟩ 3 = ⟨[]⟩ ∧ fst_free ⟨[]⟩ 3 = ⟨[]⟩ :=
  ⟨((claim_C9 ⟨[]⟩ 3).1 rfl).1, (claim_C9 ⟨[]⟩ 3).2.1 rfl⟩

/-! ## Freeze observations -/

theorem freeze_numStates (t : MFst) : numStates (freezeT t) = numStates t := by
  simp [freezeT, numStates]

theorem freeze_start (t : MFst) : (freezeT t).start = t.start := rfl

theorem freeze_arcList (t : MFst) (s : ℕ) :
    arcList (freezeT t) s = (arcList t s).insertionSort arcLe := by
  unfold arcList freezeT
  simp only [List.get?_eq_getElem?, List.getElem?_map]
  rcases hg : t.states[s]? with _ | d
  · rfl
  · rfl

theorem freeze_finalWeight (t : MFst) (s : ℕ) :
    finalWeightQ (freezeT t) s = finalWeightQ t s := by
  unfold finalWeightQ freezeT
  simp only [List.get?_eq_getElem?, List.getElem?_map]
  rcases hg : t.states[s]? with _ | d
  · rfl
  · rfl

theorem findFrz_alloc (r : Reg) (x : MFst) :
    findFrz ⟨r.slots ++ [some (.fobj x)]⟩ r.slots.length = some x := by
  unfold findFrz
  rw [List.get?_concat_length]

/-- C6: on every live mutable handle, `fst_freeze` allocates a frozen
transducer observationally equal to the original: identical `num_states`,
start, per-state arc counts and final weights, and per-state arc lists
equal up to reordering, the frozen lists being sorted ascending by
`(ilabel, olabel, nextstate, weight)`. -/
theorem claim_C6 (r : Reg) (h : ℕ) (t : MFst) (hres : findMut r h = some t) :
    findFrz (fst_freeze r h).1 (fst_freeze r h).2 = some (freezeT t) ∧
    numStates (freezeT t) = numStates t ∧
    (freezeT t).start = t.start ∧
    (∀ s, numArcsQ (freezeT t) s = numArcsQ t s) ∧
    (∀ s, finalWeightQ (freezeT t) s = finalWeightQ t s) ∧
    (∀ s, (arcList (freezeT t) s).Perm (arcList t s)) ∧
    (∀ s, (arcList (freezeT t) s).Sorted arcLe) := by
  have hfr : fst_freeze r h = allocReg r (.fobj (freezeT t)) := by
    unfold fst_freeze
    rw [hres]
  refine ⟨?_, freeze_numStates t, freeze_start t, fun s => ?_, freeze_finalWeight t,
    fun s => ?_, fun s => ?_⟩
  · rw [hfr]
    exact findFrz_alloc r (freezeT t)
  · unfold numArcsQ
    rw [freeze_arcList]
    exact (List.perm_insertionSort arcLe _).length_eq
  · rw [freeze_arcList]
    exact List.perm_insertionSort arcLe _
  · rw [freeze_arcList]
    exact List.sorted_insertionSort arcLe _

/-- C6, witness: freezing a two-arc transducer (arcs out of canonical
order) under handle `0`. -/
theorem claim_C6_witness :
    findFrz
      (fst_freeze ⟨[some (.mobj ⟨[⟨⊤, [⟨2, 1, (0 : ℚ), 0⟩, ⟨1, 1, (0 : ℚ), 0⟩]⟩], some 0⟩)]⟩ 0).1
      (fst_freeze ⟨[some (.mobj ⟨[⟨⊤, [⟨2, 1, (0 : ℚ), 0⟩, ⟨1, 1, (0 : ℚ), 0⟩]⟩], some 0⟩)]⟩ 0).2 =
      some (freezeT ⟨[⟨⊤, [⟨2, 1, (0 : ℚ), 0⟩, ⟨1, 1, (0 : ℚ), 0⟩]⟩], some 0⟩) :=
  (claim_C6 ⟨[some (.mobj ⟨[⟨⊤, [⟨2, 1, (0 : ℚ), 0⟩, ⟨1, 1, (0 : ℚ), 0⟩]⟩], some 0⟩)]⟩ 0
    ⟨[⟨⊤, [⟨2, 1, (0 : ℚ), 0⟩, ⟨1, 1, (0 : ℚ), 0⟩]⟩], some 0⟩ rfl).1

/-! ## Allocation lemmas -/

theorem findMut_alloc (r : Reg) (x : MFst) :
    findMut ⟨r.slots ++ [some (.mobj x)]⟩ r.slots.length = some x := by
  unfold findMut
  rw [List.get?_concat_length]

/-- C10: `fst_minimize` operates in place: on a live mutable handle whose
transducer satisfies minimization's preconditions (deterministic and
ε-free), the call returns `FST_OK`, the same handle afterwards resolves to
the minimized transducer, the slot table keeps its length (no new handle),
and every other slot is untouched. -/
theorem claim_C10 (r : Reg) (h : ℕ) (t : MFst) (hres : findMut r h = some t)
    (hpre : (isIDet t && isEpsFree t) = true) :
    (fst_minimize r h).2 = .ok ∧
    findMut (fst_minimize r h).1 h = some (minCore t) ∧
    (fst_minimize r h).1.slots.length = r.slots.length ∧
    (∀ h', h' ≠ h → (fst_minimize r h).1.slots.get? h' = r.slots.get? h') := by
  have hmin : minimizeT t = some (minCore t) := by
    unfold minimizeT
    rw [if_pos hpre]
  have heq : fst_minimize r h = (updReg r h (.mobj (minCore t)), .ok) := by
    simp only [fst_minimize, hres, hmin]
  refine ⟨by rw [heq], ?_, ?_, fun h' hne => ?_⟩
  · rw [heq]
    exact findMut_updReg_self r h t (minCore t) hres
  · rw [heq]
    exact List.length_set r.slots h _
  · rw [heq]
    exact updReg_get_ne r h _ h' hne

/-- C10, witness: a single-state, arc-free (hence deterministic and ε-free)
transducer under handle `0`. -/
theorem claim_C10_witness :
    (fst_minimize ⟨[some (.mobj ⟨[⟨(0 : ℚ), []⟩], some 0⟩)]⟩ 0).2 = .ok ∧
    findMut (fst_minimize ⟨[some (.mobj ⟨[⟨(0 : ℚ), []⟩], some 0⟩)]⟩ 0).1 0 =
      some (minCore ⟨[⟨(0 : ℚ), []⟩], some 0⟩) :=
  ⟨(claim_C10 ⟨[some (.mobj ⟨[⟨(0 : ℚ), []⟩], some 0⟩)]⟩ 0 ⟨[⟨(0 : ℚ), []⟩], some 0⟩
      rfl (by decide)).1,
    (claim_C10 ⟨[some (.mobj ⟨[⟨(0 : ℚ), []⟩], some 0⟩)]⟩ 0 ⟨[⟨(0 : ℚ), []⟩], some 0⟩
      rfl (by decide)).2.1⟩

/-- C7: on a live mutable handle, `fst_optimize` fails (returns
`FST_INVALID_HANDLE`, registry untouched) exactly when rm-ε fails; when
rm-ε succeeds it allocates a fresh mutable handle holding the pipeline
result: the minimization of the determinization of the ε-removal, except
that a failing determinize or minimize yields the last successful
intermediate instead of a failure. -/
theorem claim_C7 (r : Reg) (h : ℕ) (t : MFst) (hres : findMut r h = some t) :
    (rmEpsilonT t = none → fst_optimize r h = (r, FST_INVALID_HANDLE)) ∧
    (∀ t1, rmEpsilonT t = some t1 →
      ∃ res, optimizeT t = some res ∧
        fst_optimize r h = (⟨r.slots ++ [some (.mobj res)]⟩, r.slots.length) ∧
        findMut (fst_optimize r h).1 r.slots.length = some res ∧
        (determinizeT t1 = none → res = t1) ∧
        (∀ t2, determinizeT t1 = some t2 →
          (minimizeT t2 = none → res = t2) ∧
          (∀ t3, minimizeT t2 = some t3 → res = t3))) := by
  constructor
  · intro hrm
    have hopt : optimizeT t = none := by
      simp only [optimizeT, hrm]
    simp only [fst_optimize, hres, hopt]
  · intro t1 h1
    rcases hdet : determinizeT t1 with _ | t2
    · have hopt : optimizeT t = some t1 := by
        simp only [optimizeT, h1, hdet]
      have halloc : fst_optimize r h = (⟨r.slots ++ [some (.mobj t1)]⟩, r.slots.length) := by
        simp only [fst_optimize, hres, hopt, allocReg]
      refine ⟨t1, hopt, halloc, ?_, fun _ => rfl, fun t2 h2 => absurd h2 (by simp)⟩
      rw [halloc]
      exact findMut_alloc r t1
    · rcases hmn : minimizeT t2 with _ | t3
      · have hopt : optimizeT t = some t2 := by
          simp only [optimizeT, h1, hdet, hmn]
        have halloc : fst_optimize r h = (⟨r.slots ++ [some (.mobj t2)]⟩, r.slots.length) := by
          simp only [fst_optimize, hres, hopt, allocReg]
        refine ⟨t2, hopt, halloc, ?_, fun hc => absurd hc (by simp), fun t2' h2 => ?_⟩
        · rw [halloc]
          exact findMut_alloc r t2
        · injection h2 with e
          subst e
          exact ⟨fun _ => rfl, fun t3 h3 => absurd h3 (by simp [hmn])⟩
      · have hopt : optimizeT t = some t3 := by
          simp only [optimizeT, h1, hdet, hmn]
        have halloc : fst_optimize r h = (⟨r.slots ++ [some (.mobj t3)]⟩, r.slots.length) := by
          simp only [fst_optimize, hres, hopt, allocReg]
        refine ⟨t3, hopt, halloc, ?_, fun hc => absurd hc (by simp), fun t2' h2 => ?_⟩
        · rw [halloc]
          exact findMut_alloc r t3
        · injection h2 with e
          subst e
          refine ⟨fun hc => absurd hc (by simp [hmn]), fun t3' h3 => ?_⟩
          rw [hmn] at h3
          exact Option.some.inj h3

/-- C7, witness: optimizing the empty transducer under handle `0` (rm-ε
succeeds on it). -/
theorem claim_C7_witness :
    fst_optimize ⟨[some (.mobj MFst.empty)]⟩ 0 = (⟨[some (.mobj MFst.empty)]⟩, 4294967295) ∨
    ∃ res, optimizeT MFst.empty = some res ∧
      fst_optimize ⟨[some (.mobj MFst.empty)]⟩ 0 =
        (⟨[some (.mobj MFst.empty), some (.mobj res)]⟩, 1) := by
  rcases hrm : rmEpsilonT MFst.empty with _ | t1
  · exact Or.inl (((claim_C7 ⟨[some (.mobj MFst.empty)]⟩ 0 MFst.empty rfl).1) hrm)
  · rcases ((claim_C7 ⟨[some (.mobj MFst.empty)]⟩ 0 MFst.empty rfl).2) t1 hrm with
      ⟨res, hopt, halloc, _⟩
    exact Or.inr ⟨res, hopt, halloc⟩

/-- C4: every modelled API function returns its kind-appropriate sentinel
on a handle that does not resolve to a live object of the required kind
(`FST_INVALID_HANDLE` for handle returns, `FST_NO_STATE` for state
returns, `0` for `u32` counts, `+∞` for `double` returns), and the
final-weight queries also return `+∞` on a valid handle with a non-final
state. -/
theorem claim_C4 (r : Reg) (h : ℕ) :
    (findMut r h = none →
      (fst_freeze r h).2 = FST_INVALID_HANDLE ∧
      (fst_rm_epsilon r h).2 = FST_INVALID_HANDLE ∧
      (fst_determinize r h).2 = FST_INVALID_HANDLE ∧
      (∀ n, (fst_shortest_path r h n).2 = FST_INVALID_HANDLE) ∧
      (fst_optimize r h).2 = FST_INVALID_HANDLE ∧
      fst_mutable_start r h = FST_NO_STATE ∧
      (fst_mutable_add_state r h).2 = FST_NO_STATE ∧
      fst_mutable_num_states r h = 0 ∧
      (∀ s, fst_mutable_num_arcs r h s = 0) ∧
      (∀ s cap, (fst_mutable_get_arcs r h s cap).1 = 0) ∧
      (∀ s, fst_mutable_final_weight r h s = ⊤)) ∧
    (findFrz r h = none →
      fst_start r h = FST_NO_STATE ∧
      fst_num_states r h = 0 ∧
      (∀ s, fst_num_arcs r h s = 0) ∧
      (∀ s cap, (fst_get_arcs r h s cap).1 = 0) ∧
      (∀ s, fst_final_weight r h s = ⊤)) ∧
    (∀ t s, findMut r h = some t → finalWeightQ t s = ⊤ →
      fst_mutable_final_weight r h s = ⊤) ∧
    (∀ t s, findFrz r h = some t → finalWeightQ t s = ⊤ →
      fst_final_weight r h s = ⊤) := by
  refine ⟨fun hm => ?_, fun hf => ?_, fun t s hm hfin => ?_, fun t s hf hfin => ?_⟩
  · refine ⟨?_, ?_, ?_, fun n => ?_, ?_, ?_, ?_, ?_, fun s => ?_, fun s cap => ?_, fun s => ?_⟩
    · simp only [fst_freeze, hm]
    · simp only [fst_rm_epsilon, hm]
    · simp only [fst_determinize, hm]
    · simp only [fst_shortest_path, hm]
    · simp only [fst_optimize, hm]
    · simp only [fst_mutable_start, hm]
    · simp only [fst_mutable_add_state, hm]
    · simp only [fst_mutable_num_states, hm]
    · simp only [fst_mutable_num_arcs, hm]
    · simp only [fst_mutable_get_arcs, hm]
    · simp only [fst_mutable_final_weight, hm]
  · refine ⟨?_, ?_, fun s => ?_, fun s cap => ?_, fun s => ?_⟩
    · simp only [fst_start, hf]
    · simp only [fst_num_states, hf]
    · simp only [fst_num_arcs, hf]
    · simp only [fst_get_arcs, hf]
    · simp only [fst_final_weight, hf]
  · simp only [fst_mutable_final_weight, hm, hfin]
  · simp only [fst_final_weight, hf, hfin]

/-- C4, witness: handle `0` of the empty registry resolves to nothing;
state `0` of a live single-state transducer is non-final. -/
theorem claim_C4_witness :
    (fst_freeze ⟨[]⟩ 0).2 = FST_INVALID_HANDLE ∧
    fst_mutable_num_states ⟨[]⟩ 0 = 0 ∧
    fst_mutable_final_weight ⟨[some (.mobj ⟨[⟨⊤, []⟩], none⟩)]⟩ 0 0 = ⊤ :=
  ⟨((claim_C4 ⟨[]⟩ 0).1 rfl).1, ((claim_C4 ⟨[]⟩ 0).1 rfl).2.2.2.2.2.2.2.1,
    (claim_C4 ⟨[some (.mobj ⟨[⟨⊤, []⟩], none⟩)]⟩ 0).2.2.1 ⟨[⟨⊤, []⟩], none⟩ 0 rfl rfl⟩

/-! ## Walk basics -/

theorem arcList_out_of_range (t : MFst) (s : ℕ) (hs : numStates t ≤ s) :
    arcList t s = [] := by
  unfold arcList
  rw [List.get?_eq_none.mpr hs]
  rfl

theorem mem_arcList_lt (t : MFst) (s : ℕ) (a : Arc) (ha : a ∈ arcList t s) :
    s < numStates t := by
  by_contra hge
  rw [arcList_out_of_range t s (Nat.le_of_not_lt hge)] at ha
  exact absurd ha (List.not_mem_nil a)

theorem isWalk_end (t : MFst) :
    ∀ (l : List Arc) (s u : ℕ), IsWalk t s l u → u = endOf s l := by
  intro l
  induction l with
  | nil => intro s u h; exact h.symm
  | cons a l ih => intro s u h; exact ih a.nextstate u h.2

theorem isWalk_endOf (t : MFst) :
    ∀ (l : List Arc) (s u : ℕ), IsWalk t s l u → IsWalk t s l (endOf s l) := by
  intro l s u h
  rw [← isWalk_end t l s u h]
  exact h

theorem endOf_append (l₁ l₂ : List Arc) :
    ∀ s, endOf s (l₁ ++ l₂) = endOf (endOf s l₁) l₂ := by
  induction l₁ with
  | nil => intro s; rfl
  | cons a l ih => intro s; exact ih a.nextstate

theorem isWalk_append (t : MFst) :
    ∀ (l₁ l₂ : List Arc) (s m u : ℕ),
      IsWalk t s l₁ m → IsWalk t m l₂ u → IsWalk t s (l₁ ++ l₂) u := by
  intro l₁
  induction l₁ with
  | nil =>
    intro l₂ s m u h1 h2
    cases h1
    exact h2
  | cons a l ih =>
    intro l₂ s m u h1 h2
    exact ⟨h1.1, ih l₂ a.nextstate m u h1.2 h2⟩

theorem isWalk_split (t : MFst) :
    ∀ (l₁ l₂ : List Arc) (s u : ℕ), IsWalk t s (l₁ ++ l₂) u →
      IsWalk t s l₁ (endOf s l₁) ∧ IsWalk t (endOf s l₁) l₂ u := by
  intro l₁
  induction l₁ with
  | nil => intro l₂ s u h; exact ⟨rfl, h⟩
  | cons a l ih =>
    intro l₂ s u h
    have hr := ih l₂ a.nextstate u h.2
    exact ⟨⟨h.1, hr.1⟩, hr.2⟩

theorem wgt_nil : wgt [] = 0 := rfl

theorem wgt_cons (a : Arc) (l : List Arc) : wgt (a :: l) = a.weight + wgt l := by
  simp [wgt]

theorem wgt_append (l₁ l₂ : List Arc) : wgt (l₁ ++ l₂) = wgt l₁ + wgt l₂ := by
  simp [wgt]

theorem inStr_cons (a : Arc) (l : List Arc) :
    inStr (a :: l) = if a.ilabel = 0 then inStr l else a.ilabel :: inStr l := by
  by_cases h : a.ilabel = 0
  · simp [inStr, h]
  · simp [inStr, h]

theorem outStr_cons (a : Arc) (l : List Arc) :
    outStr (a :: l) = if a.olabel = 0 then outStr l else a.olabel :: outStr l := by
  by_cases h : a.olabel = 0
  · simp [outStr, h]
  · simp [outStr, h]

theorem inStr_append (l₁ l₂ : List Arc) : inStr (l₁ ++ l₂) = inStr l₁ ++ inStr l₂ := by
  simp [inStr]

theorem outStr_append (l₁ l₂ : List Arc) : outStr (l₁ ++ l₂) = outStr l₁ ++ outStr l₂ := by
  simp [outStr]

theorem isEps_labels (a : Arc) (h : isEps a = true) : a.ilabel = 0 ∧ a.olabel = 0 := by
  simp [isEps] at h
  exact h

theorem eps_proj (l : List Arc) (h : ∀ a ∈ l, isEps a = true) :
    inStr l = [] ∧ outStr l = [] := by
  induction l with
  | nil => exact ⟨rfl, rfl⟩
  | cons a l ih =>
    have ha := isEps_labels a (h a (List.mem_cons_self a l))
    have hr := ih (fun b hb => h b (List.mem_cons_of_mem a hb))
    rw [inStr_cons, outStr_cons, if_pos ha.1, if_pos ha.2]
    exact hr

/-! ## Folded minimum -/

theorem foldrMin_le (l : List W) : ∀ x ∈ l, l.foldr min ⊤ ≤ x := by
  induction l with
  | nil => intro x hx; exact absurd hx (List.not_mem_nil x)
  | cons a l ih =>
    intro x hx
    rcases List.mem_cons.mp hx with rfl | hx
    · exact min_le_left _ _
    · exact le_trans (min_le_right _ _) (ih x hx)

theorem foldrMin_mem (l : List W) : l.foldr min ⊤ = ⊤ ∨ l.foldr min ⊤ ∈ l := by
  induction l with
  | nil => exact Or.inl rfl
  | cons a l ih =>
    simp only [List.foldr_cons]
    rcases ih with htop | hmem
    · rw [htop, min_eq_left (le_top : a ≤ ⊤)]
      exact Or.inr (List.mem_cons_self a l)
    · rcases le_total a (l.foldr min ⊤) with hle | hle
      · rw [min_eq_left hle]
        exact Or.inr (List.mem_cons_self a l)
      · rw [min_eq_right hle]
        exact Or.inr (List.mem_cons_of_mem a hmem)

/-! ## ε-walk enumeration -/

theorem epsWalks_sound (t : MFst) :
    ∀ (k s : ℕ) (l : List Arc), l ∈ epsWalks t k s →
      IsWalk t s l (endOf s l) ∧ (∀ a ∈ l, isEps a = true) ∧ l.length ≤ k := by
  intro k
  induction k with
  | zero =>
    intro s l hl
    have hnil : l = [] := by simpa [epsWalks] using hl
    subst hnil
    exact ⟨rfl, fun a ha => absurd ha (List.not_mem_nil a), Nat.zero_le 0⟩
  | succ k ih =>
    intro s l hl
    rw [epsWalks] at hl
    rcases List.mem_cons.mp hl with rfl | hl
    · exact ⟨rfl, fun a ha => absurd ha (List.not_mem_nil a), by simp⟩
    · rcases List.mem_flatMap.mp hl with ⟨a, ha, hmap⟩
      rcases List.mem_map.mp hmap with ⟨l', hl', rfl⟩
      have hsound := ih a.nextstate l' hl'
      have hfil := List.mem_filter.mp ha
      refine ⟨⟨hfil.1, hsound.1⟩, ?_, by simpa using hsound.2.2⟩
      intro b hb
      rcases List.mem_cons.mp hb with rfl | hb
      · exact hfil.2
      · exact hsound.2.1 b hb

theorem epsWalks_complete (t : MFst) :
    ∀ (k : ℕ) (l : List Arc) (s u : ℕ), IsWalk t s l u →
      (∀ a ∈ l, isEps a = true) → l.length ≤ k → l ∈ epsWalks t k s := by
  intro k
  induction k with
  | zero =>
    intro l s u _ _ hlen
    have hnil : l = [] := List.length_eq_zero.mp (Nat.le_zero.mp hlen)
    subst hnil
    simp [epsWalks]
  | succ k ih =>
    intro l s u hw he hlen
    cases l with
    | nil => simp [epsWalks]
    | cons a l' =>
      rw [epsWalks]
      refine List.mem_cons_of_mem _ (List.mem_flatMap.mpr ⟨a, ?_, ?_⟩)
      · exact List.mem_filter.mpr ⟨hw.1, he a (List.mem_cons_self a l')⟩
      · exact List.mem_map.mpr ⟨l', ih l' a.nextstate u hw.2
          (fun b hb => he b (List.mem_cons_of_mem a hb))
          (Nat.le_of_succ_le_succ (by simpa using hlen)), rfl⟩

theorem epsWalksTo_mem (t : MFst) (p q : ℕ) (l : List Arc) :
    l ∈ epsWalksTo t p q ↔ l ∈ epsWalks t (numStates t) p ∧ endOf p l = q := by
  simp [epsWalksTo, List.mem_filter]

theorem epsDist_le (t : MFst) (p q : ℕ) (l : List Arc)
    (hl : l ∈ epsWalks t (numStates t) p) (he : endOf p l = q) :
    epsDist t p q ≤ wgt l := by
  apply foldrMin_le
  exact List.mem_map.mpr ⟨l, (epsWalksTo_mem t p q l).mpr ⟨hl, he⟩, rfl⟩

theorem nil_mem_epsWalks (t : MFst) (k s : ℕ) : ([] : List Arc) ∈ epsWalks t k s := by
  cases k with
  | zero => simp [epsWalks]
  | succ k => rw [epsWalks]; exact List.mem_cons_self _ _

theorem epsDist_self (t : MFst) (p : ℕ) : epsDist t p p ≤ 0 := by
  have := epsDist_le t p p [] (nil_mem_epsWalks t (numStates t) p) rfl
  simpa [wgt_nil] using this

theorem epsDist_attain (t : MFst) (p q : ℕ) (h : epsDist t p q ≠ ⊤) :
    ∃ l, IsWalk t p l q ∧ (∀ a ∈ l, isEps a = true) ∧ wgt l = epsDist t p q := by
  rcases foldrMin_mem ((epsWalksTo t p q).map wgt) with htop | hmem
  · exact absurd htop h
  · rcases List.mem_map.mp hmem with ⟨l, hl, hw⟩
    rcases (epsWalksTo_mem t p q l).mp hl with ⟨hmem', hend⟩
    have hs := epsWalks_sound t (numStates t) p l hmem'
    exact ⟨l, hend ▸ hs.1, hs.2.1, hw⟩

/-! ## Cycle removal -/

theorem isWalk_take_drop (t : MFst) (l : List Arc) (s u : ℕ) (h : IsWalk t s l u) (i : ℕ) :
    IsWalk t s (l.take i) (endOf s (l.take i)) ∧
    IsWalk t (endOf s (l.take i)) (l.drop i) u :=
  isWalk_split t (l.take i) (l.drop i) s u (by rw [List.take_append_drop]; exact h)

theorem walk_state_lt (t : MFst) (l : List Arc) (s u : ℕ) (h : IsWalk t s l u)
    (i : ℕ) (hi : i < l.length) : endOf s (l.take i) < numStates t := by
  have hd := (isWalk_take_drop t l s u h i).2
  cases hdd : l.drop i with
  | nil =>
    have hlen := congrArg List.length hdd
    rw [List.length_drop] at hlen
    simp at hlen
    omega
  | cons b rest =>
    rw [hdd] at hd
    exact mem_arcList_lt t _ b hd.1

theorem walk_repeat (t : MFst) (l : List Arc) (s u : ℕ) (h : IsWalk t s l u)
    (hlen : numStates t + 1 ≤ l.length) :
    ∃ i j, i < j ∧ j ≤ numStates t ∧ endOf s (l.take i) = endOf s (l.take j) := by
  have hmaps : ∀ i ∈ Finset.range (numStates t + 1),
      endOf s (l.take i) ∈ Finset.range (numStates t) := by
    intro i hi
    rw [Finset.mem_range] at hi ⊢
    exact walk_state_lt t l s u h i (by omega)
  have hcard : (Finset.range (numStates t)).card < (Finset.range (numStates t + 1)).card := by
    simp
  rcases Finset.exists_ne_map_eq_of_card_lt_of_maps_to hcard hmaps with
    ⟨i, hi, j, hj, hne, heq⟩
  rw [Finset.mem_range] at hi hj
  rcases Nat.lt_or_ge i j with hij | hij
  · exact ⟨i, j, hij, by omega, heq⟩
  · exact ⟨j, i, by omega, by omega, heq.symm⟩

theorem walk_removeCycle (t : MFst) (l : List Arc) (s u : ℕ) (h : IsWalk t s l u)
    (hlen : numStates t + 1 ≤ l.length) :
    ∃ l' c m, IsWalk t s l' u ∧ IsWalk t m c m ∧ c ≠ [] ∧
      c.length ≤ numStates t ∧ l'.length + c.length = l.length ∧
      wgt l = wgt l' + wgt c ∧ (∀ a ∈ c, a ∈ l) ∧ (∀ a ∈ l', a ∈ l) := by
  rcases walk_repeat t l s u h hlen with ⟨i, j, hij, hjn, heq⟩
  have hjl : j ≤ l.length := by omega
  have htj : l.take j = l.take i ++ (l.take j).drop i := by
    conv_lhs => rw [← List.take_append_drop i (l.take j)]
    congr 1
    rw [List.take_take]
    congr 1
    omega
  have hl : l = l.take i ++ ((l.take j).drop i ++ l.drop j) := by
    rw [← List.append_assoc, ← htj, List.take_append_drop]
  have h1 := isWalk_split t (l.take i) ((l.take j).drop i ++ l.drop j) s u
    (by rw [← hl]; exact h)
  have h2 := isWalk_split t ((l.take j).drop i) (l.drop j) (endOf s (l.take i)) u h1.2
  have hend : endOf (endOf s (l.take i)) ((l.take j).drop i) = endOf s (l.take i) := by
    have hx : endOf s (l.take j) = endOf (endOf s (l.take i)) ((l.take j).drop i) := by
      conv_lhs => rw [htj]
      rw [endOf_append]
    rw [← hx, ← heq]
  have hclen : ((l.take j).drop i).length = j - i := by
    rw [List.length_drop, List.length_take, Nat.min_eq_left hjl]
  have hcne : (l.take j).drop i ≠ [] := by
    intro hnil
    rw [hnil] at hclen
    simp at hclen
    omega
  have hl'len : (l.take i ++ l.drop j).length = i + (l.length - j) := by
    rw [List.length_append, List.length_take, List.length_drop, Nat.min_eq_left (by omega)]
  refine ⟨l.take i ++ l.drop j, (l.take j).drop i, endOf s (l.take i),
    ?_, ?_, hcne, by omega, by omega, ?_, ?_, ?_⟩
  · refine isWalk_append t _ _ s _ u h1.1 ?_
    rw [← hend]
    exact h2.2
  · have hcl := h2.1
    rw [hend] at hcl
    exact hcl
  · conv_lhs => rw [hl]
    rw [wgt_append, wgt_append, wgt_append, add_left_comm, add_comm]
  · intro a ha
    exact List.take_subset j l (List.drop_subset i (l.take j) ha)
  · intro a ha
    rcases List.mem_append.mp ha with ha | ha
    · exact List.take_subset i l ha
    · exact List.drop_subset j l ha

theorem walk_reduce (t : MFst) (P : Arc → Bool)
    (hcyc : ∀ m c, IsWalk t m c m → c ≠ [] → (∀ a ∈ c, P a = true) → 0 ≤ wgt c) :
    ∀ (N : ℕ) (l : List Arc) (s u : ℕ), l.length ≤ N → IsWalk t s l u →
      (∀ a ∈ l, P a = true) →
      ∃ l', IsWalk t s l' u ∧ (∀ a ∈ l', P a = true) ∧
        l'.length ≤ numStates t ∧ wgt l' ≤ wgt l := by
  intro N
  induction N with
  | zero =>
    intro l s u hN hw hP
    exact ⟨l, hw, hP, by omega, le_refl _⟩
  | succ N ih =>
    intro l s u hN hw hP
    by_cases hsmall : l.length ≤ numStates t
    · exact ⟨l, hw, hP, hsmall, le_refl _⟩
    · have hlen : numStates t + 1 ≤ l.length := by omega
      rcases walk_removeCycle t l s u hw hlen with
        ⟨l', c, m, hw', hcw, hcne, hclen, hsum, hwgt, hcm, hlm⟩
      have hccard : 0 < c.length := List.length_pos.mpr hcne
      rcases ih l' s u (by omega) hw' (fun a ha => hP a (hlm a ha)) with
        ⟨l'', hw'', hP'', hlen'', hwgt''⟩
      refine ⟨l'', hw'', hP'', hlen'', ?_⟩
      calc wgt l'' ≤ wgt l' := hwgt''
        _ ≤ wgt l' + wgt c :=
          le_add_of_nonneg_right (hcyc m c hcw hcne (fun a ha => hP a (hcm a ha)))
        _ = wgt l := hwgt.symm

theorem negCycle_shorten (t : MFst) :
    ∀ (N : ℕ) (c : List Arc) (m : ℕ), c.length ≤ N → c ≠ [] → IsWalk t m c m →
      (∀ a ∈ c, isEps a = true) → wgt c < 0 →
      ∃ m' c', c' ≠ [] ∧ IsWalk t m' c' m' ∧ (∀ a ∈ c', isEps a = true) ∧
        c'.length ≤ numStates t ∧ wgt c' < 0 := by
  intro N
  induction N with
  | zero =>
    intro c m hN hne _ _ _
    exact absurd (List.length_eq_zero.mp (Nat.le_zero.mp hN)) hne
  | succ N ih =>
    intro c m hN hne hw hP hneg
    by_cases hsmall : c.length ≤ numStates t
    · exact ⟨m, c, hne, hw, hP, hsmall, hneg⟩
    · have hlen : numStates t + 1 ≤ c.length := by omega
      rcases walk_removeCycle t c m m hw hlen with
        ⟨l', cyc, mid, hw', hcw, hcne, hcslen, hsum, hwgt, hcm, hlm⟩
      rcases lt_or_ge (wgt cyc) 0 with hneg' | hpos
      · exact ⟨mid, cyc, hcne, hcw, fun a ha => hP a (hcm a ha), hcslen, hneg'⟩
      · have hl'neg : wgt l' < 0 := by
          by_contra hge
          push_neg at hge
          exact absurd hneg (not_lt.mpr (hwgt ▸ add_nonneg hge hpos))
        have hccard : 0 < cyc.length := List.length_pos.mpr hcne
        have hl'ne : l' ≠ [] := by
          intro hnil
          rw [hnil] at hl'neg
          exact absurd hl'neg (not_lt.mpr (le_refl 0))
        exact ih l' m (by omega) hl'ne hw' (fun a ha => hP a (hlm a ha)) hl'neg

theorem hasNegEpsCycle_iff (t : MFst) :
    hasNegEpsCycle t = true ↔
      ∃ p c, c ≠ [] ∧ IsWalk t p c p ∧ (∀ a ∈ c, isEps a = true) ∧ wgt c < 0 := by
  constructor
  · intro h
    unfold hasNegEpsCycle at h
    rcases List.any_eq_true.mp h with ⟨p, _, hany⟩
    rcases List.any_eq_true.mp hany with ⟨l, hl, hcond⟩
    simp only [Bool.and_eq_true, Bool.not_eq_true', List.isEmpty_eq_false,
      beq_iff_eq, decide_eq_true_eq] at hcond
    have hs := epsWalks_sound t (numStates t) p l hl
    refine ⟨p, l, ?_, ?_, hs.2.1, hcond.2⟩
    · intro hnil
      rw [hnil] at hcond
      simp at hcond
    · have hwk := hs.1
      rw [hcond.1.2] at hwk
      exact hwk
  · rintro ⟨p, c, hne, hw, hP, hneg⟩
    rcases negCycle_shorten t c.length c p (le_refl _) hne hw hP hneg with
      ⟨m', c', hne', hw', hP', hlen', hneg'⟩
    unfold hasNegEpsCycle
    rw [List.any_eq_true]
    have hm'lt : m' < numStates t := by
      cases c' with
      | nil => exact absurd rfl hne'
      | cons a rest => exact mem_arcList_lt t m' a hw'.1
    refine ⟨m', List.mem_range.mpr hm'lt, ?_⟩
    rw [List.any_eq_true]
    refine ⟨c', epsWalks_complete t (numStates t) c' m' m' hw' hP' hlen', ?_⟩
    have hend : endOf m' c' = m' := (isWalk_end t c' m' m' hw').symm
    simp [hend, hneg', hne']

/-! ## ε-distance against arbitrary ε-walks -/

theorem noNegEps_cycle_nonneg (t : MFst) (h : NoNegEps t) (m : ℕ) (c : List Arc)
    (hw : IsWalk t m c m) (hne : c ≠ []) (hP : ∀ a ∈ c, isEps a = true) :
    0 ≤ wgt c := by
  by_contra hlt
  push_neg at hlt
  exact h ⟨m, c, hne, hw, hP, hlt⟩

theorem epsDist_le_walk (t : MFst) (h : NoNegEps t) (l : List Arc) (p u : ℕ)
    (hw : IsWalk t p l u) (hP : ∀ a ∈ l, isEps a = true) :
    epsDist t p u ≤ wgt l := by
  rcases walk_reduce t isEps
      (fun m c hcw hcne hcP => noNegEps_cycle_nonneg t h m c hcw hcne hcP)
      l.length l p u (le_refl _) hw hP with ⟨l', hw', hP', hlen', hwgt'⟩
  have hmem := epsWalks_complete t (numStates t) l' p u hw' hP' hlen'
  exact le_trans (epsDist_le t p u l' hmem (isWalk_end t l' p u hw').symm) hwgt'

/-! ## Structure of the ε-removal output -/

theorem finalWeightQ_out (t : MFst) (p : ℕ) (hp : numStates t ≤ p) :
    finalWeightQ t p = ⊤ := by
  unfold finalWeightQ
  rw [List.get?_eq_none.mpr hp]
  rfl

theorem arcList_getElem (t : MFst) (s : ℕ) :
    arcList t s = (Option.map StateData.arcs t.states[s]?).getD [] := by
  unfold arcList
  rw [List.get?_eq_getElem?]

theorem finalWeightQ_getElem (t : MFst) (s : ℕ) :
    finalWeightQ t s = (Option.map StateData.finalWeight t.states[s]?).getD ⊤ := by
  unfold finalWeightQ
  rw [List.get?_eq_getElem?]

theorem rmCore_numStates (t : MFst) : numStates (rmCore t) = numStates t := by
  simp [rmCore, numStates]

theorem rmCore_start (t : MFst) : (rmCore t).start = t.start := rfl

theorem rmCore_arcList (t : MFst) (p : ℕ) (hp : p < numStates t) :
    arcList (rmCore t) p = (List.range (numStates t)).flatMap (fun q =>
      if epsDist t p q = ⊤ then []
      else ((arcList t q).filter (fun a => !(isEps a))).map
        (fun a => ⟨a.ilabel, a.olabel, epsDist t p q + a.weight, a.nextstate⟩)) := by
  unfold arcList rmCore
  simp [List.get?_eq_getElem?, List.getElem?_map, List.getElem?_range, hp]
  simp only [← arcList_getElem]

theorem rmCore_final (t : MFst) (p : ℕ) (hp : p < numStates t) :
    finalWeightQ (rmCore t) p =
      ((List.range (numStates t)).map
        (fun q => epsDist t p q + finalWeightQ t q)).foldr min ⊤ := by
  unfold finalWeightQ rmCore
  simp [List.get?_eq_getElem?, List.getElem?_map, List.getElem?_range, hp]
  simp only [← arcList_getElem, ← finalWeightQ_getElem]

theorem rmCore_arcs_mem (t : MFst) (p : ℕ) (hp : p < numStates t) (a' : Arc) :
    a' ∈ arcList (rmCore t) p ↔
      ∃ q, q < numStates t ∧ epsDist t p q ≠ ⊤ ∧
        ∃ a, a ∈ arcList t q ∧ isEps a = false ∧
          a' = ⟨a.ilabel, a.olabel, epsDist t p q + a.weight, a.nextstate⟩ := by
  rw [rmCore_arcList t p hp, List.mem_flatMap]
  constructor
  · rintro ⟨q, hq, hmem⟩
    rw [List.mem_range] at hq
    by_cases hd : epsDist t p q = ⊤
    · rw [if_pos hd] at hmem
      exact absurd hmem (List.not_mem_nil a')
    · rw [if_neg hd] at hmem
      rcases List.mem_map.mp hmem with ⟨a, ha, rfl⟩
      have hfa := List.mem_filter.mp ha
      exact ⟨q, hq, hd, a, hfa.1, by simpa using hfa.2, rfl⟩
  · rintro ⟨q, hq, hd, a, ha, hne, rfl⟩
    refine ⟨q, List.mem_range.mpr hq, ?_⟩
    rw [if_neg hd]
    exact List.mem_map.mpr ⟨a, List.mem_filter.mpr ⟨ha, by simp [hne]⟩, rfl⟩

theorem rmCore_final_le (t : MFst) (p q : ℕ) (hp : p < numStates t) :
    finalWeightQ (rmCore t) p ≤ epsDist t p q + finalWeightQ t q := by
  by_cases hq : q < numStates t
  · rw [rmCore_final t p hp]
    apply foldrMin_le
    exact List.mem_map.mpr ⟨q, List.mem_range.mpr hq, rfl⟩
  · rw [finalWeightQ_out t q (by omega), add_top]
    exact le_top

theorem rmCore_final_attain (t : MFst) (p : ℕ) (hp : p < numStates t) :
    finalWeightQ (rmCore t) p = ⊤ ∨
    ∃ q, q < numStates t ∧
      finalWeightQ (rmCore t) p = epsDist t p q + finalWeightQ t q := by
  rw [rmCore_final t p hp]
  rcases foldrMin_mem ((List.range (numStates t)).map
      (fun q => epsDist t p q + finalWeightQ t q)) with htop | hmem
  · exact Or.inl htop
  · rcases List.mem_map.mp hmem with ⟨q, hq, heq⟩
    exact Or.inr ⟨q, List.mem_range.mp hq, heq.symm⟩

/-! ## The embedding of weights into `EReal` -/

theorem wE_top : wE ⊤ = ⊤ := rfl

theorem wE_coe (q : ℚ) : wE (q : W) = ((q : ℝ) : EReal) := rfl

theorem wE_mono {a b : W} (h : a ≤ b) : wE a ≤ wE b := by
  induction b using WithTop.recTopCoe with
  | top => exact le_top
  | coe qb =>
    induction a using WithTop.recTopCoe with
    | top => exact absurd h (by simp)
    | coe qa =>
      rw [wE_coe, wE_coe]
      have hq : qa ≤ qb := WithTop.coe_le_coe.mp h
      exact_mod_cast hq

/-! ## Lifting walks of the ε-removed transducer back to the original -/

theorem rm_lift_walk (t : MFst) :
    ∀ (l : List Arc) (p g : ℕ), IsWalk (rmCore t) p l g →
      ∃ L, IsWalk t p L g ∧ inStr L = inStr l ∧ outStr L = outStr l ∧
        wgt L = wgt l := by
  intro l
  induction l with
  | nil =>
    intro p g h
    exact ⟨[], h, rfl, rfl, rfl⟩
  | cons a' l' ih =>
    intro p g h
    have hp : p < numStates (rmCore t) := mem_arcList_lt _ p a' h.1
    rw [rmCore_numStates] at hp
    rcases (rmCore_arcs_mem t p hp a').mp h.1 with ⟨q, _, hd, a, ha, _, heq⟩
    subst heq
    rcases epsDist_attain t p q hd with ⟨E, hEw, hEeps, hEwgt⟩
    rcases ih a.nextstate g h.2 with ⟨L', hL', hin', hout', hwgt'⟩
    refine ⟨E ++ a :: L', isWalk_append t E (a :: L') p q g hEw ⟨ha, hL'⟩, ?_, ?_, ?_⟩
    · rw [inStr_append, (eps_proj E hEeps).1, List.nil_append, inStr_cons, inStr_cons, hin']
    · rw [outStr_append, (eps_proj E hEeps).2, List.nil_append, outStr_cons, outStr_cons,
        hout']
    · rw [wgt_append, wgt_cons, wgt_cons, hEwgt, hwgt']
      exact (add_assoc _ _ _).symm

/-! ## rm-ε can only lower no weight: every rm-walk is matched in `t` -/

theorem rm_set_le (t : MFst) (x y : List ℕ) :
    pairWeight t x y ≤ pairWeight (rmCore t) x y := by
  unfold pairWeight
  apply le_sInf
  rintro v ⟨s0, u, l, hstart, hwalk, hin, hout, rfl⟩
  by_cases hfin : finalWeightQ (rmCore t) u = ⊤
  · rw [hfin, add_top, wE_top]
    exact le_top
  · have hu : u < numStates t := by
      by_contra hge
      exact hfin (finalWeightQ_out (rmCore t) u (by rw [rmCore_numStates]; omega))
    rcases rmCore_final_attain t u hu with htop | ⟨q, _, hfeq⟩
    · exact absurd htop hfin
    · have hdne : epsDist t u q ≠ ⊤ := by
        intro hc
        rw [hc, top_add] at hfeq
        exact hfin hfeq
      rcases epsDist_attain t u q hdne with ⟨E, hEw, hEeps, hEwgt⟩
      rcases rm_lift_walk t l s0 u hwalk with ⟨L, hLw, hLin, hLout, hLwgt⟩
      apply sInf_le
      refine ⟨s0, q, L ++ E, rmCore_start t ▸ hstart,
        isWalk_append t L E s0 u q hLw hEw, ?_, ?_, ?_⟩
      · rw [inStr_append, (eps_proj E hEeps).1, List.append_nil, hLin, hin]
      · rw [outStr_append, (eps_proj E hEeps).2, List.append_nil, hLout, hout]
      · rw [wgt_append, hLwgt, hEwgt, hfeq, add_assoc]

/-! ## Decomposing original walks into ε-blocks -/

theorem rm_decomp_eps (t : MFst) (hNN : NoNegEps t) (b : List Arc) (s u : ℕ)
    (hw : IsWalk t s b u) (hb : ∀ a ∈ b, isEps a = true) :
    wgt b + finalWeightQ t u = ⊤ ∨
    finalWeightQ (rmCore t) s ≤ wgt b + finalWeightQ t u := by
  by_cases hs : s < numStates t
  · refine Or.inr ?_
    calc finalWeightQ (rmCore t) s ≤ epsDist t s u + finalWeightQ t u :=
        rmCore_final_le t s u hs
      _ ≤ wgt b + finalWeightQ t u :=
        add_le_add_right (epsDist_le_walk t hNN b s u hw hb) _
  · have hnil : b = [] := by
      cases b with
      | nil => rfl
      | cons a l => exact absurd (mem_arcList_lt t s a hw.1) hs
    subst hnil
    have hus : s = u := hw
    subst hus
    exact Or.inl (by rw [wgt_nil, zero_add, finalWeightQ_out t s (by omega)])

theorem dropWhile_head_false (p : Arc → Bool) :
    ∀ (l : List Arc) (a : Arc) (l₂ : List Arc), l.dropWhile p = a :: l₂ → p a = false := by
  intro l
  induction l with
  | nil => intro a l₂ h; exact absurd h (by simp)
  | cons x xs ih =>
    intro a l₂ h
    rw [List.dropWhile_cons] at h
    by_cases hx : p x
    · rw [if_pos hx] at h
      exact ih a l₂ h
    · rw [if_neg hx] at h
      cases h
      simpa using hx

theorem rm_decomp (t : MFst) (hNN : NoNegEps t) :
    ∀ (N : ℕ) (l : List Arc) (s u : ℕ), l.length ≤ N → IsWalk t s l u →
      wgt l + finalWeightQ t u = ⊤ ∨
      ∃ l' g, IsWalk (rmCore t) s l' g ∧ inStr l' = inStr l ∧ outStr l' = outStr l ∧
        wgt l' + finalWeightQ (rmCore t) g ≤ wgt l + finalWeightQ t u := by
  intro N
  induction N with
  | zero =>
    intro l s u hN hw
    have hnil : l = [] := List.length_eq_zero.mp (Nat.le_zero.mp hN)
    subst hnil
    rcases rm_decomp_eps t hNN [] s u hw
        (fun a ha => absurd ha (List.not_mem_nil a)) with h | h
    · exact Or.inl h
    · exact Or.inr ⟨[], s, rfl, rfl, rfl, by rw [wgt_nil, zero_add]; exact h⟩
  | succ N ih =>
    intro l s u hN hw
    rcases hrest : l.dropWhile isEps with _ | ⟨a, l₂⟩
    · have hall : ∀ a ∈ l, isEps a = true := by
        have hsplit := List.takeWhile_append_dropWhile (p := isEps) (l := l)
        rw [hrest, List.append_nil] at hsplit
        intro a ha
        exact List.mem_takeWhile_imp (hsplit ▸ ha)
      rcases rm_decomp_eps t hNN l s u hw hall with h | h
      · exact Or.inl h
      · exact Or.inr ⟨[], s, rfl, (eps_proj l hall).1.symm, (eps_proj l hall).2.symm,
          by rw [wgt_nil, zero_add]; exact h⟩
    · have hsplit : l = l.takeWhile isEps ++ (a :: l₂) := by
        conv_lhs => rw [← List.takeWhile_append_dropWhile (p := isEps) (l := l)]
        rw [hrest]
      have hbeps : ∀ x ∈ l.takeWhile isEps, isEps x = true :=
        fun x hx => List.mem_takeWhile_imp hx
      have haeps : isEps a = false := dropWhile_head_false isEps l a l₂ hrest
      have hw' : IsWalk t s (l.takeWhile isEps ++ (a :: l₂)) u := by
        rw [← hsplit]; exact hw
      have h1 := isWalk_split t (l.takeWhile isEps) (a :: l₂) s u hw'
      have hmem : a ∈ arcList t (endOf s (l.takeWhile isEps)) := h1.2.1
      have hw2 : IsWalk t a.nextstate l₂ u := h1.2.2
      have hlen2 : l₂.length ≤ N := by
        have hlen := congrArg List.length hsplit
        simp [List.length_append] at hlen
        omega
      rcases ih l₂ a.nextstate u hlen2 hw2 with htop | ⟨l'', g, hwk'', hin'', hout'', hle''⟩
      · refine Or.inl ?_
        rw [hsplit, wgt_append, wgt_cons, add_assoc, add_assoc, htop, add_top, add_top]
      · by_cases hdist : epsDist t s (endOf s (l.takeWhile isEps)) = ⊤
        · refine Or.inl ?_
          have hbtop : wgt (l.takeWhile isEps) = ⊤ := by
            by_contra hne
            have hle := epsDist_le_walk t hNN (l.takeWhile isEps) s _ h1.1 hbeps
            rw [hdist] at hle
            exact hne (top_le_iff.mp hle)
          rw [hsplit, wgt_append, hbtop, top_add, top_add]
        · have hs : s < numStates t := by
            cases hbn : l.takeWhile isEps with
            | nil =>
              have hqs : endOf s (l.takeWhile isEps) = s := by rw [hbn]; rfl
              exact mem_arcList_lt t s a (hqs ▸ hmem)
            | cons x xs =>
              have hb1 : IsWalk t s (x :: xs) (endOf s (l.takeWhile isEps)) := by
                rw [← hbn]; exact h1.1
              exact mem_arcList_lt t s x hb1.1
          have hq' : endOf s (l.takeWhile isEps) < numStates t :=
            mem_arcList_lt t _ a hmem
          have harc : (⟨a.ilabel, a.olabel,
              epsDist t s (endOf s (l.takeWhile isEps)) + a.weight, a.nextstate⟩ : Arc) ∈
              arcList (rmCore t) s := by
            rw [rmCore_arcs_mem t s hs]
            exact ⟨_, hq', hdist, a, hmem, haeps, rfl⟩
          have hdistle : epsDist t s (endOf s (l.takeWhile isEps)) ≤ wgt (l.takeWhile isEps) :=
            epsDist_le_walk t hNN _ s _ h1.1 hbeps
          refine Or.inr ⟨⟨a.ilabel, a.olabel,
            epsDist t s (endOf s (l.takeWhile isEps)) + a.weight, a.nextstate⟩ :: l'', g,
            ⟨harc, hwk''⟩, ?_, ?_, ?_⟩
          · rw [hsplit, inStr_append, (eps_proj _ hbeps).1, List.nil_append,
              inStr_cons, inStr_cons, hin'']
          · rw [hsplit, outStr_append, (eps_proj _ hbeps).2, List.nil_append,
              outStr_cons, outStr_cons, hout'']
          · rw [wgt_cons]
            conv_rhs => rw [hsplit, wgt_append, wgt_cons]
            calc epsDist t s (endOf s (l.takeWhile isEps)) + a.weight + wgt l'' +
                  finalWeightQ (rmCore t) g
                = epsDist t s (endOf s (l.takeWhile isEps)) + a.weight +
                  (wgt l'' + finalWeightQ (rmCore t) g) := by rw [add_assoc]
              _ ≤ epsDist t s (endOf s (l.takeWhile isEps)) + a.weight +
                  (wgt l₂ + finalWeightQ t u) := add_le_add_left hle'' _
              _ ≤ wgt (l.takeWhile isEps) + a.weight + (wgt l₂ + finalWeightQ t u) :=
                  add_le_add_right (add_le_add_right hdistle _) _
              _ = wgt (l.takeWhile isEps) + (a.weight + wgt l₂) + finalWeightQ t u := by
                  rw [add_assoc, add_assoc, add_assoc]

theorem rm_set_ge (t : MFst) (hNN : NoNegEps t) (x y : List ℕ) :
    pairWeight (rmCore t) x y ≤ pairWeight t x y := by
  unfold pairWeight
  apply le_sInf
  rintro v ⟨s0, u, l, hstart, hwalk, hin, hout, rfl⟩
  rcases rm_decomp t hNN l.length l s0 u (le_refl _) hwalk with
    htop | ⟨l', g, hwk', hin', hout', hle'⟩
  · rw [htop, wE_top]
    exact le_top
  · apply sInf_le_of_le (b := wE (wgt l' + finalWeightQ (rmCore t) g))
    · exact ⟨s0, g, l', by rw [rmCore_start]; exact hstart, hwk',
        by rw [hin', hin], by rw [hout', hout], rfl⟩
    · exact wE_mono hle'

/-- C2: when `T` has no negative-weight ε:ε cycle, `fst_rm_epsilon`
succeeds, its output has no arc with both labels ε, and it assigns every
pair of ε-free strings exactly the weight `T` assigns; when `T` has a
negative ε:ε cycle, `fst_rm_epsilon` fails (the `INVALID_STATE` category:
a handle-returning call signals it as `FST_INVALID_HANDLE` with the
registry untouched). -/
theorem claim_C2 (t : MFst) :
    (NoNegEps t →
      rmEpsilonT t = some (rmCore t) ∧
      (∀ s a, a ∈ arcList (rmCore t) s → ¬(a.ilabel = 0 ∧ a.olabel = 0)) ∧
      (∀ x y, (∀ c ∈ x, c ≠ 0) → (∀ c ∈ y, c ≠ 0) →
        pairWeight (rmCore t) x y = pairWeight t x y) ∧
      (∀ r h, findMut r h = some t →
        fst_rm_epsilon r h = (⟨r.slots ++ [some (.mobj (rmCore t))]⟩, r.slots.length))) ∧
    (¬ NoNegEps t →
      rmEpsilonT t = none ∧
      ∀ r h, findMut r h = some t → fst_rm_epsilon r h = (r, FST_INVALID_HANDLE)) := by
  constructor
  · intro hNN
    have hdet : hasNegEpsCycle t = false :=
      Bool.eq_false_iff.mpr (fun hc => hNN ((hasNegEpsCycle_iff t).mp hc))
    have hok : rmEpsilonT t = some (rmCore t) := by
      unfold rmEpsilonT
      rw [hdet]
      rfl
    refine ⟨hok, ?_, ?_, ?_⟩
    · intro s a ha
      by_cases hs : s < numStates t
      · rcases (rmCore_arcs_mem t s hs a).mp ha with ⟨q, _, _, b, _, hne, rfl⟩
        simp only [isEps, Bool.and_eq_false_iff] at hne
        rintro ⟨h1, h2⟩
        rcases hne with hne | hne
        · exact absurd h1 (by simpa using hne)
        · exact absurd h2 (by simpa using hne)
      · rw [arcList_out_of_range (rmCore t) s (by rw [rmCore_numStates]; omega)] at ha
        exact absurd ha (List.not_mem_nil a)
    · intro x y _ _
      exact le_antisymm (rm_set_ge t hNN x y) (rm_set_le t x y)
    · intro r h hres
      simp only [fst_rm_epsilon, hres, hok, allocReg]
  · intro hNeg
    have hex := not_not.mp hNeg
    have hdet : hasNegEpsCycle t = true := (hasNegEpsCycle_iff t).mpr hex
    have hnone : rmEpsilonT t = none := by
      unfold rmEpsilonT
      rw [hdet]
      rfl
    refine ⟨hnone, fun r h hres => ?_⟩
    simp only [fst_rm_epsilon, hres, hnone]

/-- C2, witness: a one-state ε-free transducer (no ε-cycle at all), and a
one-state transducer with a negative ε:ε self-loop. -/
theorem claim_C2_witness :
    rmEpsilonT ⟨[⟨((0 : ℚ) : W), []⟩], some 0⟩ =
      some (rmCore ⟨[⟨((0 : ℚ) : W), []⟩], some 0⟩) ∧
    pairWeight (rmCore ⟨[⟨((0 : ℚ) : W), []⟩], some 0⟩) [1] [2] =
      pairWeight ⟨[⟨((0 : ℚ) : W), []⟩], some 0⟩ [1] [2] ∧
    rmEpsilonT ⟨[⟨⊤, [⟨0, 0, ((-1 : ℚ) : W), 0⟩]⟩], some 0⟩ = none := by
  have hnn : NoNegEps ⟨[⟨((0 : ℚ) : W), []⟩], some 0⟩ := by
    rintro ⟨p, c, hne, hwc, _, _⟩
    cases c with
    | nil => exact hne rfl
    | cons a l =>
      have hmem : a ∈ arcList ⟨[⟨((0 : ℚ) : W), []⟩], some 0⟩ p := hwc.1
      have harc : arcList ⟨[⟨((0 : ℚ) : W), []⟩], some 0⟩ p = [] := by
        cases p with
        | zero => rfl
        | succ k => rfl
      rw [harc] at hmem
      exact absurd hmem (List.not_mem_nil a)
  have hneg : ¬ NoNegEps ⟨[⟨⊤, [⟨0, 0, ((-1 : ℚ) : W), 0⟩]⟩], some 0⟩ := by
    intro hNN
    refine hNN ⟨0, [⟨0, 0, ((-1 : ℚ) : W), 0⟩], by simp, ?_, ?_, ?_⟩
    · exact ⟨by simp [arcList], rfl⟩
    · intro a ha
      rw [List.mem_singleton] at ha
      subst ha
      rfl
    · show wgt [⟨0, 0, ((-1 : ℚ) : W), 0⟩] < 0
      rw [wgt_cons, wgt_nil, add_zero]
      show ((-1 : ℚ) : W) < ((0 : ℚ) : W)
      exact_mod_cast (by norm_num : (-1 : ℚ) < 0)
  exact ⟨((claim_C2 _).1 hnn).1,
    ((claim_C2 _).1 hnn).2.2.1 [1] [2] (by decide) (by decide),
    ((claim_C2 _).2 hneg).1⟩

/-! ## Bounded walk enumeration (all labels) -/

theorem allWalks_sound (t : MFst) :
    ∀ (k s : ℕ) (l : List Arc), l ∈ allWalks t k s →
      IsWalk t s l (endOf s l) ∧ l.length ≤ k := by
  intro k
  induction k with
  | zero =>
    intro s l hl
    have hnil : l = [] := by simpa [allWalks] using hl
    subst hnil
    exact ⟨rfl, Nat.zero_le 0⟩
  | succ k ih =>
    intro s l hl
    rw [allWalks] at hl
    rcases List.mem_cons.mp hl with rfl | hl
    · exact ⟨rfl, by simp⟩
    · rcases List.mem_flatMap.mp hl with ⟨a, ha, hmap⟩
      rcases List.mem_map.mp hmap with ⟨l', hl', rfl⟩
      have hsound := ih a.nextstate l' hl'
      exact ⟨⟨ha, hsound.1⟩, by simpa using hsound.2⟩

theorem allWalks_complete (t : MFst) :
    ∀ (k : ℕ) (l : List Arc) (s u : ℕ), IsWalk t s l u → l.length ≤ k →
      l ∈ allWalks t k s := by
  intro k
  induction k with
  | zero =>
    intro l s u _ hlen
    have hnil : l = [] := List.length_eq_zero.mp (Nat.le_zero.mp hlen)
    subst hnil
    simp [allWalks]
  | succ k ih =>
    intro l s u hw hlen
    cases l with
    | nil => simp [allWalks]
    | cons a l' =>
      rw [allWalks]
      refine List.mem_cons_of_mem _ (List.mem_flatMap.mpr ⟨a, hw.1, ?_⟩)
      exact List.mem_map.mpr ⟨l', ih l' a.nextstate u hw.2
        (Nat.le_of_succ_le_succ (by simpa using hlen)), rfl⟩

theorem accWalks_mem (t : MFst) (bound s0 : ℕ) (hstart : t.start = some s0)
    (l : List Arc) :
    l ∈ accWalks t bound ↔
      l ∈ allWalks t bound s0 ∧ finalWeightQ t (endOf s0 l) ≠ ⊤ := by
  unfold accWalks
  rw [hstart]
  rw [List.mem_dedup, List.mem_filter]
  simp

theorem accWalks_nodup (t : MFst) (bound : ℕ) : (accWalks t bound).Nodup := by
  unfold accWalks
  cases t.start with
  | none => exact List.nodup_nil
  | some s0 => exact List.nodup_dedup _

theorem accepting_iff (t : MFst) (s0 : ℕ) (hstart : t.start = some s0) (l : List Arc) :
    Accepting t l ↔ IsWalk t s0 l (endOf s0 l) ∧ finalWeightQ t (endOf s0 l) ≠ ⊤ := by
  constructor
  · rintro ⟨s0', hstart', hw, hfin⟩
    rw [hstart] at hstart'
    cases hstart'
    exact ⟨hw, hfin⟩
  · rintro ⟨hw, hfin⟩
    exact ⟨s0, hstart, hw, hfin⟩

theorem pathW_eq (t : MFst) (s0 : ℕ) (hstart : t.start = some s0) (l : List Arc) :
    pathW t l = wgt l + finalWeightQ t (endOf s0 l) := by
  unfold pathW
  rw [hstart]

/-! ## Non-negative weights -/

theorem wgt_nonneg (l : List Arc) (h : ∀ a ∈ l, 0 ≤ a.weight) : 0 ≤ wgt l := by
  induction l with
  | nil => exact le_refl 0
  | cons a l ih =>
    rw [wgt_cons]
    exact add_nonneg (h a (List.mem_cons_self a l))
      (ih (fun b hb => h b (List.mem_cons_of_mem a hb)))

theorem walk_arcs_nonneg (t : MFst) (hnn : ∀ s a, a ∈ arcList t s → 0 ≤ a.weight) :
    ∀ (l : List Arc) (s u : ℕ), IsWalk t s l u → ∀ a ∈ l, 0 ≤ a.weight := by
  intro l
  induction l with
  | nil => intro s u _ a ha; exact absurd ha (List.not_mem_nil a)
  | cons b l ih =>
    intro s u hw a ha
    rcases List.mem_cons.mp ha with rfl | ha
    · exact hnn s a hw.1
    · exact ih b.nextstate u hw.2 a ha

theorem cycle_nonneg (t : MFst) (hnn : ∀ s a, a ∈ arcList t s → 0 ≤ a.weight)
    (m : ℕ) (c : List Arc) (hw : IsWalk t m c m) : 0 ≤ wgt c :=
  wgt_nonneg c (walk_arcs_nonneg t hnn c m m hw)

theorem hasNegArc_false (t : MFst) (hnn : ∀ s a, a ∈ arcList t s → 0 ≤ a.weight) :
    hasNegArc t = false := by
  rw [Bool.eq_false_iff]
  intro hc
  unfold hasNegArc at hc
  rcases List.any_eq_true.mp hc with ⟨s, _, hany⟩
  rcases List.any_eq_true.mp hany with ⟨a, ha, hneg⟩
  rw [decide_eq_true_eq] at hneg
  exact absurd (hnn s a ha) (not_le.mpr hneg)

theorem hasNegArc_true (t : MFst) (s : ℕ) (a : Arc) (ha : a ∈ arcList t s)
    (hneg : a.weight < 0) : hasNegArc t = true := by
  unfold hasNegArc
  rw [List.any_eq_true]
  refine ⟨s, List.mem_range.mpr (mem_arcList_lt t s a ha), ?_⟩
  rw [List.any_eq_true]
  exact ⟨a, ha, decide_eq_true hneg⟩

/-! ## Walks reduced into length bands

With non-negative cycles, a walk longer than `(k+1)·num_states` can be
shortened (never raising its weight) to one whose length lies in the band
`(k·num_states, (k+1)·num_states]`; distinct bands yield distinct walks. -/

theorem walk_band (t : MFst) (hcyc : ∀ m c, IsWalk t m c m → 0 ≤ wgt c) :
    ∀ (N : ℕ) (l : List Arc) (s u : ℕ), l.length ≤ N → IsWalk t s l u →
      ∀ k, (k + 1) * numStates t < l.length →
      ∃ l', IsWalk t s l' u ∧ wgt l' ≤ wgt l ∧
        k * numStates t < l'.length ∧ l'.length ≤ (k + 1) * numStates t := by
  intro N
  induction N with
  | zero =>
    intro l s u hN _ k hk
    omega
  | succ N ih =>
    intro l s u hN hw k hk
    have hns : numStates t ≤ (k + 1) * numStates t :=
      Nat.le_mul_of_pos_left _ (by omega)
    rcases walk_removeCycle t l s u hw (by omega) with
      ⟨l', c, m, hw', hcw, hcne, hclen, hsum, hwgt, _, _⟩
    have hcpos : 0 < c.length := List.length_pos.mpr hcne
    have hwle : wgt l' ≤ wgt l := by
      rw [hwgt]
      exact le_add_of_nonneg_right (hcyc m c hcw)
    by_cases hcase : (k + 1) * numStates t < l'.length
    · rcases ih l' s u (by omega) hw' k hcase with ⟨l'', hw'', hwgt'', hlo, hhi⟩
      exact ⟨l'', hw'', le_trans hwgt'' hwle, hlo, hhi⟩
    · refine ⟨l', hw', hwle, ?_, by omega⟩
      have hexp : (k + 1) * numStates t = k * numStates t + numStates t := by ring
      omega

theorem band_walks (t : MFst) (hcyc : ∀ m c, IsWalk t m c m → 0 ≤ wgt c)
    (l : List Arc) (s u : ℕ) (hw : IsWalk t s l u) (n : ℕ)
    (hlong : (n + 2) * numStates t < l.length) :
    ∀ k, k ≤ n → ∃ l', IsWalk t s l' u ∧ wgt l' ≤ wgt l ∧
      k * numStates t < l'.length ∧ l'.length ≤ (k + 1) * numStates t := by
  intro k hk
  apply walk_band t hcyc l.length l s u (le_refl _) hw k
  have hmul : (k + 1) * numStates t ≤ (n + 2) * numStates t :=
    Nat.mul_le_mul_right _ (by omega)
  omega

/-! ## The sorted bounded enumeration behind `nBest` -/

theorem acc_mem_accWalks (t : MFst) (l : List Arc) (bound : ℕ)
    (hacc : Accepting t l) (hlen : l.length ≤ bound) : l ∈ accWalks t bound := by
  rcases hacc with ⟨s0, hstart, hw, hfin⟩
  rw [accWalks_mem t bound s0 hstart]
  exact ⟨allWalks_complete t bound l s0 _ hw hlen, hfin⟩

theorem accWalks_accepting (t : MFst) (bound : ℕ) (l : List Arc)
    (hl : l ∈ accWalks t bound) : Accepting t l := by
  unfold accWalks at hl
  rcases hstart : t.start with _ | s0
  · simp only [hstart] at hl
    exact absurd hl (List.not_mem_nil l)
  · simp only [hstart] at hl
    rw [List.mem_dedup, List.mem_filter] at hl
    have hsound := allWalks_sound t _ s0 l hl.1
    refine ⟨s0, hstart, hsound.1, ?_⟩
    have hfin := hl.2
    simpa using hfin

theorem mem_wsL (t : MFst) (n : ℕ) (l : List Arc) :
    l ∈ wsL t n ↔ l ∈ accWalks t ((n + 2) * numStates t) :=
  (List.perm_insertionSort (walkLe t) _).mem_iff

theorem wsL_sorted (t : MFst) (n : ℕ) : (wsL t n).Sorted (walkLe t) :=
  List.sorted_insertionSort (walkLe t) _

theorem wsL_nodup (t : MFst) (n : ℕ) : (wsL t n).Nodup :=
  (List.perm_insertionSort (walkLe t) _).nodup_iff.mpr (accWalks_nodup t _)

theorem wsL_take_drop (t : MFst) (n m : ℕ) (x y : List Arc)
    (hx : x ∈ (wsL t n).take m) (hy : y ∈ (wsL t n).drop m) :
    pathW t x ≤ pathW t y := by
  have hs : ((wsL t n).take m ++ (wsL t n).drop m).Pairwise (walkLe t) := by
    rw [List.take_append_drop]
    exact wsL_sorted t n
  exact (List.pairwise_append.mp hs).2.2 x hx y hy

theorem nBest_accepting (t : MFst) (n : ℕ) :
    ∀ x ∈ nBest t n, Accepting t x := by
  intro x hx
  unfold nBest at hx
  exact accWalks_accepting t _ x ((mem_wsL t n x).mp (List.mem_of_mem_take hx))

theorem nBest_nodup (t : MFst) (n : ℕ) : (nBest t n).Nodup :=
  (List.take_sublist _ _).nodup (wsL_nodup t n)

theorem nBest_sorted (t : MFst) (n : ℕ) :
    ((nBest t n).map (pathW t)).Sorted (· ≤ ·) := by
  rw [List.Sorted, List.pairwise_map]
  exact List.Pairwise.sublist (List.take_sublist _ _) (wsL_sorted t n)

/-- A walk longer than the enumeration bound dominates `n + 1` pairwise
distinct members of the sorted enumeration. -/
theorem long_acc_bands (t : MFst) (n : ℕ)
    (hnn : ∀ s a, a ∈ arcList t s → 0 ≤ a.weight)
    (l : List Arc) (s0 : ℕ) (hstart : t.start = some s0)
    (hwl : IsWalk t s0 l (endOf s0 l)) (hfinl : finalWeightQ t (endOf s0 l) ≠ ⊤)
    (hlong : (n + 2) * numStates t < l.length) :
    ∃ f : Fin (n + 1) → List Arc, Function.Injective f ∧
      ∀ k, f k ∈ wsL t n ∧ pathW t (f k) ≤ pathW t l := by
  have hcyc : ∀ m c, IsWalk t m c m → 0 ≤ wgt c := cycle_nonneg t hnn
  have hband : ∀ k : Fin (n + 1), ∃ l', IsWalk t s0 l' (endOf s0 l) ∧ wgt l' ≤ wgt l ∧
      k.val * numStates t < l'.length ∧ l'.length ≤ (k.val + 1) * numStates t :=
    fun k => band_walks t hcyc l s0 _ hwl n hlong k.val (by omega)
  choose f hf using hband
  have hend : ∀ k, endOf s0 (f k) = endOf s0 l :=
    fun k => (isWalk_end t (f k) s0 _ (hf k).1).symm
  have hfacc : ∀ k, Accepting t (f k) := by
    intro k
    refine ⟨s0, hstart, isWalk_endOf t (f k) s0 _ (hf k).1, ?_⟩
    rw [hend k]
    exact hfinl
  have hfbound : ∀ k : Fin (n + 1), (f k).length ≤ (n + 2) * numStates t := by
    intro k
    have h1 := (hf k).2.2.2
    have hmul : (k.val + 1) * numStates t ≤ (n + 2) * numStates t :=
      Nat.mul_le_mul_right _ (by omega)
    omega
  refine ⟨f, ?_, fun k => ⟨(mem_wsL t n (f k)).mpr
    (acc_mem_accWalks t (f k) _ (hfacc k) (hfbound k)), ?_⟩⟩
  · intro k k' he
    by_contra hne
    have hne' : k.val ≠ k'.val := fun hc => hne (Fin.ext hc)
    have hlen : (f k).length = (f k').length := by rw [he]
    rcases Nat.lt_or_ge k.val k'.val with hlt | hge
    · have hmul : (k.val + 1) * numStates t ≤ k'.val * numStates t :=
        Nat.mul_le_mul_right _ (by omega)
      have h1 := (hf k).2.2.2
      have h2 := (hf k').2.2.1
      omega
    · have hlt : k'.val < k.val := by omega
      have hmul : (k'.val + 1) * numStates t ≤ k.val * numStates t :=
        Nat.mul_le_mul_right _ (by omega)
      have h1 := (hf k').2.2.2
      have h2 := (hf k).2.2.1
      omega
  · rw [pathW_eq t s0 hstart, pathW_eq t s0 hstart, hend k]
    exact add_le_add_right (hf k).2.1 _

theorem nBest_outside (t : MFst) (n : ℕ)
    (hnn : ∀ s a, a ∈ arcList t s → 0 ≤ a.weight)
    (l : List Arc) (hacc : Accepting t l) (hout : l ∉ nBest t n) :
    ∀ x ∈ nBest t n, pathW t x ≤ pathW t l := by
  intro x hx
  rcases hacc with ⟨s0, hstart, hwl, hfinl⟩
  by_cases hlb : l.length ≤ (n + 2) * numStates t
  · have hmem : l ∈ wsL t n :=
      (mem_wsL t n l).mpr (acc_mem_accWalks t l _ ⟨s0, hstart, hwl, hfinl⟩ hlb)
    have hsplit : l ∈ (wsL t n).take n ++ (wsL t n).drop n := by
      rw [List.take_append_drop]
      exact hmem
    rcases List.mem_append.mp hsplit with hl | hl
    · exact absurd hl hout
    · exact wsL_take_drop t n n x l hx hl
  · push_neg at hlb
    rcases long_acc_bands t n hnn l s0 hstart hwl hfinl hlb with ⟨f, hinj, hf⟩
    have hnotall : ∃ k, f k ∉ (wsL t n).take n := by
      by_contra hall
      push_neg at hall
      have himg : Finset.image f Finset.univ ⊆ ((wsL t n).take n).toFinset := by
        intro z hz
        rcases Finset.mem_image.mp hz with ⟨k, _, rfl⟩
        exact List.mem_toFinset.mpr (hall k)
      have hcard := Finset.card_le_card himg
      rw [Finset.card_image_of_injective _ hinj, Finset.card_univ, Fintype.card_fin] at hcard
      have h1 : ((wsL t n).take n).toFinset.card ≤ ((wsL t n).take n).length :=
        List.toFinset_card_le _
      have h2 : ((wsL t n).take n).length ≤ n := List.length_take_le _ _
      omega
    rcases hnotall with ⟨k, hk⟩
    have hkd : f k ∈ (wsL t n).drop n := by
      have hsplit : f k ∈ (wsL t n).take n ++ (wsL t n).drop n := by
        rw [List.take_append_drop]
        exact (hf k).1
      rcases List.mem_append.mp hsplit with hl | hl
      · exact absurd hl hk
      · exact hl
    exact le_trans (wsL_take_drop t n n x (f k) hx hkd) (hf k).2

theorem nBest_length (t : MFst) (n : ℕ)
    (hnn : ∀ s a, a ∈ arcList t s → 0 ≤ a.weight)
    (hex : ∃ ps : List (List Arc), ps.Nodup ∧ ps.length = n ∧ ∀ l ∈ ps, Accepting t l) :
    (nBest t n).length = n := by
  rcases hex with ⟨ps, hnd, hlen, hacc⟩
  suffices h : n ≤ (wsL t n).length by
    unfold nBest
    rw [List.length_take]
    omega
  by_cases hall : ∀ p ∈ ps, p.length ≤ (n + 2) * numStates t
  · have hsub : ps ⊆ wsL t n := fun p hp =>
      (mem_wsL t n p).mpr (acc_mem_accWalks t p _ (hacc p hp) (hall p hp))
    have hle := (List.subperm_of_subset hnd hsub).length_le
    omega
  · push_neg at hall
    rcases hall with ⟨p, hp, hplong⟩
    rcases hacc p hp with ⟨s0, hstart, hwp, hfinp⟩
    rcases long_acc_bands t n hnn p s0 hstart hwp hfinp hplong with ⟨f, hinj, hf⟩
    have himg : Finset.image f Finset.univ ⊆ (wsL t n).toFinset := by
      intro z hz
      rcases Finset.mem_image.mp hz with ⟨k, _, rfl⟩
      exact List.mem_toFinset.mpr (hf k).1
    have hcard := Finset.card_le_card himg
    rw [Finset.card_image_of_injective _ hinj, Finset.card_univ, Fintype.card_fin] at hcard
    have h1 : (wsL t n).toFinset.card = (wsL t n).length :=
      List.toFinset_card_of_nodup (wsL_nodup t n)
    omega

/-! ## Linear chains in the shortest-path output -/

theorem chainOf_get (l : List Arc) (fw : W) :
    ∀ (base j : ℕ), (chainOf l fw base)[j]? =
      if h : j < l.length then
        some ⟨⊤, [⟨(l.get ⟨j, h⟩).ilabel, (l.get ⟨j, h⟩).olabel, (l.get ⟨j, h⟩).weight,
          base + j + 1⟩]⟩
      else if j = l.length then some ⟨fw, []⟩ else none := by
  induction l with
  | nil =>
    intro base j
    cases j with
    | zero => simp [chainOf]
    | succ k => simp [chainOf]
  | cons b rest ih =>
    intro base j
    cases j with
    | zero =>
      rw [dif_pos (by simp)]
      simp [chainOf, List.get]
    | succ k =>
      have hstep : (chainOf (b :: rest) fw base)[k + 1]? =
          (chainOf rest fw (base + 1))[k]? := by simp [chainOf]
      rw [hstep, ih]
      by_cases h : k < rest.length
      · rw [dif_pos h, dif_pos (by simpa using Nat.succ_lt_succ h)]
        have harith : base + 1 + k + 1 = base + (k + 1) + 1 := by omega
        simp [harith, List.get]
      · rw [dif_neg h, dif_neg (by simpa using fun hh => h (Nat.lt_of_succ_lt_succ hh))]
        by_cases he : k = rest.length
        · rw [if_pos he, if_pos (by simpa using he)]
        · rw [if_neg he, if_neg (by simpa using he)]

theorem chainArcs_wgt (l : List Arc) : ∀ base, wgt (chainArcs l base) = wgt l := by
  induction l with
  | nil => intro base; rfl
  | cons a rest ih =>
    intro base
    rw [chainArcs, wgt_cons, wgt_cons, ih]

theorem chainArcs_endOf (l : List Arc) : ∀ base, endOf base (chainArcs l base) = base + l.length := by
  induction l with
  | nil => intro base; rfl
  | cons a rest ih =>
    intro base
    show endOf (base + 1) (chainArcs rest (base + 1)) = base + (rest.length + 1)
    rw [ih (base + 1)]
    omega

theorem region_arcList (T : MFst) (l : List Arc) (fw : W) (base : ℕ)
    (hreg : ∀ j, j ≤ l.length → T.states[base + j]? = (chainOf l fw base)[j]?)
    (j : ℕ) (hj : j < l.length) :
    arcList T (base + j) =
      [⟨(l.get ⟨j, hj⟩).ilabel, (l.get ⟨j, hj⟩).olabel, (l.get ⟨j, hj⟩).weight,
        base + j + 1⟩] := by
  rw [arcList_getElem, hreg j (le_of_lt hj), chainOf_get, dif_pos hj]
  rfl

theorem region_arcList_end (T : MFst) (l : List Arc) (fw : W) (base : ℕ)
    (hreg : ∀ j, j ≤ l.length → T.states[base + j]? = (chainOf l fw base)[j]?) :
    arcList T (base + l.length) = [] := by
  rw [arcList_getElem, hreg l.length (le_refl _), chainOf_get, dif_neg (lt_irrefl _),
    if_pos rfl]
  rfl

theorem region_final_mid (T : MFst) (l : List Arc) (fw : W) (base : ℕ)
    (hreg : ∀ j, j ≤ l.length → T.states[base + j]? = (chainOf l fw base)[j]?)
    (j : ℕ) (hj : j < l.length) : finalWeightQ T (base + j) = ⊤ := by
  rw [finalWeightQ_getElem, hreg j (le_of_lt hj), chainOf_get, dif_pos hj]
  rfl

theorem region_final_end (T : MFst) (l : List Arc) (fw : W) (base : ℕ)
    (hreg : ∀ j, j ≤ l.length → T.states[base + j]? = (chainOf l fw base)[j]?) :
    finalWeightQ T (base + l.length) = fw := by
  rw [finalWeightQ_getElem, hreg l.length (le_refl _), chainOf_get, dif_neg (lt_irrefl _),
    if_pos rfl]
  rfl

theorem region_acc_walk (T : MFst) (l : List Arc) (fw : W) (base : ℕ)
    (hreg : ∀ j, j ≤ l.length → T.states[base + j]? = (chainOf l fw base)[j]?) :
    ∀ (w : List Arc) (j e : ℕ), j ≤ l.length → IsWalk T (base + j) w e →
      finalWeightQ T e ≠ ⊤ →
      w = chainArcs (l.drop j) (base + j) ∧ e = base + l.length := by
  intro w
  induction w with
  | nil =>
    intro j e hj hw hfin
    have he : base + j = e := hw
    subst he
    by_cases hlt : j < l.length
    · exact absurd (region_final_mid T l fw base hreg j hlt) hfin
    · have hj' : j = l.length := by omega
      subst hj'
      rw [List.drop_length]
      exact ⟨rfl, rfl⟩
  | cons a w' ih =>
    intro j e hj hw hfin
    by_cases hlt : j < l.length
    · have harc := hw.1
      rw [region_arcList T l fw base hreg j hlt] at harc
      rw [List.mem_singleton] at harc
      subst harc
      have hnext : base + j + 1 = base + (j + 1) := by omega
      have hw2 : IsWalk T (base + (j + 1)) w' e := by
        rw [← hnext]
        exact hw.2
      rcases ih (j + 1) e hlt hw2 hfin with ⟨hw', he⟩
      refine ⟨?_, he⟩
      have hdrop : l.drop j = l.get ⟨j, hlt⟩ :: l.drop (j + 1) :=
        (List.get_cons_drop l ⟨j, hlt⟩).symm
      rw [hdrop, chainArcs, hw', hnext]
    · have hj' : j = l.length := by omega
      subst hj'
      have harc := hw.1
      rw [region_arcList_end T l fw base hreg] at harc
      exact absurd harc (List.not_mem_nil a)

theorem region_walk_exists (T : MFst) (l : List Arc) (fw : W) (base : ℕ)
    (hreg : ∀ j, j ≤ l.length → T.states[base + j]? = (chainOf l fw base)[j]?) :
    ∀ (d j : ℕ), j + d = l.length →
      IsWalk T (base + j) (chainArcs (l.drop j) (base + j)) (base + l.length) := by
  intro d
  induction d with
  | zero =>
    intro j hj
    have hj' : j = l.length := by omega
    subst hj'
    rw [List.drop_length]
    rfl
  | succ d ih =>
    intro j hj
    have hlt : j < l.length := by omega
    have hdrop : l.drop j = l.get ⟨j, hlt⟩ :: l.drop (j + 1) :=
      (List.get_cons_drop l ⟨j, hlt⟩).symm
    rw [hdrop, chainArcs]
    refine ⟨?_, ?_⟩
    · rw [region_arcList T l fw base hreg j hlt]
      exact List.mem_singleton.mpr rfl
    · have hnext : base + j + 1 = base + (j + 1) := by omega
      show IsWalk T (base + j + 1) (chainArcs (l.drop (j + 1)) (base + j + 1)) _
      rw [hnext]
      exact ih (j + 1) (by omega)

theorem chainOf_length (l : List Arc) (fw : W) :
    ∀ base, (chainOf l fw base).length = l.length + 1 := by
  induction l with
  | nil => intro base; rfl
  | cons a rest ih =>
    intro base
    show (chainOf rest fw (base + 1)).length + 1 = rest.length + 1 + 1
    rw [ih (base + 1)]

/-! ## The single-chain output (N = 1) -/

theorem chain_region (l : List Arc) (fw : W) :
    ∀ j, j ≤ l.length →
      (⟨chainOf l fw 0, some 0⟩ : MFst).states[0 + j]? = (chainOf l fw 0)[j]? := by
  intro j _
  rw [Nat.zero_add]

theorem chain_accepting (l : List Arc) (fw : W) (hfw : fw ≠ ⊤) (w : List Arc) :
    Accepting ⟨chainOf l fw 0, some 0⟩ w ↔ w = chainArcs l 0 := by
  constructor
  · rintro ⟨s0, hstart, hw, hfin⟩
    have hs0 : s0 = 0 := by
      have h2 : some s0 = some 0 := by rw [← hstart]
      exact Option.some.inj h2
    subst hs0
    have hmain := region_acc_walk ⟨chainOf l fw 0, some 0⟩ l fw 0 (chain_region l fw)
      w 0 (endOf 0 w) (Nat.zero_le _) hw hfin
    rw [List.drop_zero] at hmain
    exact hmain.1
  · rintro rfl
    have hwk := region_walk_exists ⟨chainOf l fw 0, some 0⟩ l fw 0 (chain_region l fw)
      l.length 0 (by omega)
    rw [List.drop_zero] at hwk
    have hend : endOf 0 (chainArcs l 0) = 0 + l.length := chainArcs_endOf l 0
    refine ⟨0, rfl, ?_, ?_⟩
    · rw [hend]
      exact hwk
    · rw [hend, region_final_end _ l fw 0 (chain_region l fw)]
      exact hfw

theorem chain_walk_weight (l : List Arc) (fw : W) :
    pathW ⟨chainOf l fw 0, some 0⟩ (chainArcs l 0) = wgt l + fw := by
  rw [pathW_eq _ 0 rfl, chainArcs_wgt, chainArcs_endOf,
    region_final_end _ l fw 0 (chain_region l fw)]

/-! ## The union-of-chains output (N > 1) -/

theorem chainsFrom_get_region (ps : List (List Arc × W)) :
    ∀ (base i j : ℕ) (hi : i < ps.length), j ≤ (ps.get ⟨i, hi⟩).1.length →
      (chainsFrom ps base)[chainOffset ps i + j]? =
        (chainOf (ps.get ⟨i, hi⟩).1 (ps.get ⟨i, hi⟩).2 (base + chainOffset ps i))[j]? := by
  induction ps with
  | nil =>
    intro base i j hi _
    exact absurd hi (by simp)
  | cons p rest ih =>
    intro base i j hi hj
    rcases p with ⟨l, fw⟩
    cases i with
    | zero =>
      have hj' : j ≤ l.length := hj
      show (chainOf l fw base ++ chainsFrom rest (base + (l.length + 1)))[0 + j]? = _
      rw [Nat.zero_add, List.getElem?_append, if_pos (by rw [chainOf_length]; omega)]
      show (chainOf l fw base)[j]? = (chainOf l fw (base + 0))[j]?
      rw [Nat.add_zero]
    | succ i' =>
      show (chainOf l fw base ++ chainsFrom rest (base + (l.length + 1)))[
        (l.length + 1) + chainOffset rest i' + j]? = _
      rw [List.getElem?_append, if_neg (by rw [chainOf_length]; omega)]
      have hidx : (l.length + 1) + chainOffset rest i' + j - (chainOf l fw base).length =
          chainOffset rest i' + j := by
        rw [chainOf_length]
        omega
      rw [hidx, ih (base + (l.length + 1)) i' j (by simpa using hi) hj]
      have hb : base + (l.length + 1) + chainOffset rest i' =
          base + ((l.length + 1) + chainOffset rest i') := by omega
      rw [hb]
      rfl

theorem spUnion_start (ps : List (List Arc × W)) : (spUnion ps).start = some 0 := rfl

theorem spUnion_arcList0 (ps : List (List Arc × W)) :
    arcList (spUnion ps) 0 = unionStarts ps 1 := by
  rw [arcList_getElem]
  show (Option.map StateData.arcs
    ((⟨⊤, unionStarts ps 1⟩ :: chainsFrom ps 1 : List StateData))[0]?).getD [] = _
  rw [List.getElem?_cons_zero]
  rfl

theorem spUnion_final0 (ps : List (List Arc × W)) :
    finalWeightQ (spUnion ps) 0 = ⊤ := by
  rw [finalWeightQ_getElem]
  show (Option.map StateData.finalWeight
    ((⟨⊤, unionStarts ps 1⟩ :: chainsFrom ps 1 : List StateData))[0]?).getD ⊤ = ⊤
  rw [List.getElem?_cons_zero]
  rfl

theorem spUnion_region (ps : List (List Arc × W)) (i : ℕ) (hi : i < ps.length) :
    ∀ j, j ≤ (ps.get ⟨i, hi⟩).1.length →
      (spUnion ps).states[(1 + chainOffset ps i) + j]? =
        (chainOf (ps.get ⟨i, hi⟩).1 (ps.get ⟨i, hi⟩).2 (1 + chainOffset ps i))[j]? := by
  intro j hj
  have hidx : (1 + chainOffset ps i) + j = (chainOffset ps i + j) + 1 := by omega
  rw [hidx]
  show ((⟨⊤, unionStarts ps 1⟩ :: chainsFrom ps 1 : List StateData))[(chainOffset ps i + j) + 1]? = _
  rw [List.getElem?_cons_succ]
  exact chainsFrom_get_region ps 1 i j hi hj

theorem unionStarts_mem (ps : List (List Arc × W)) :
    ∀ (base : ℕ) (a : Arc), a ∈ unionStarts ps base ↔
      ∃ i, ∃ hi : i < ps.length,
        a = ⟨0, 0, ((0 : ℚ) : W), base + chainOffset ps i⟩ := by
  induction ps with
  | nil => intro base a; simp [unionStarts]
  | cons p rest ih =>
    intro base a
    rcases p with ⟨l, fw⟩
    rw [unionStarts, List.mem_cons, ih (base + (l.length + 1))]
    constructor
    · rintro (rfl | ⟨i, hi, rfl⟩)
      · refine ⟨0, by simp, ?_⟩
        show _ = Arc.mk 0 0 ((0 : ℚ) : W) (base + 0)
        rw [Nat.add_zero]
      · refine ⟨i + 1, by simpa using hi, ?_⟩
        show _ = Arc.mk 0 0 ((0 : ℚ) : W) (base + ((l.length + 1) + chainOffset rest i))
        congr 1
        omega
    · rintro ⟨i, hi, rfl⟩
      cases i with
      | zero =>
        left
        show Arc.mk 0 0 ((0 : ℚ) : W) (base + 0) = _
        rw [Nat.add_zero]
      | succ i' =>
        right
        refine ⟨i', by simpa using hi, ?_⟩
        show Arc.mk 0 0 ((0 : ℚ) : W) (base + ((l.length + 1) + chainOffset rest i')) = _
        congr 1
        omega

theorem unionWalks_length (ps : List (List Arc × W)) :
    ∀ base, (unionWalks ps base).length = ps.length := by
  induction ps with
  | nil => intro base; rfl
  | cons p rest ih =>
    intro base
    rcases p with ⟨l, fw⟩
    show (unionWalks rest (base + (l.length + 1))).length + 1 = rest.length + 1
    rw [ih]

theorem unionWalks_get (ps : List (List Arc × W)) :
    ∀ (base i : ℕ) (hi : i < ps.length),
      (unionWalks ps base)[i]? =
        some (⟨0, 0, ((0 : ℚ) : W), base + chainOffset ps i⟩ ::
          chainArcs (ps.get ⟨i, hi⟩).1 (base + chainOffset ps i)) := by
  induction ps with
  | nil => intro base i hi; exact absurd hi (by simp)
  | cons p rest ih =>
    intro base i hi
    rcases p with ⟨l, fw⟩
    cases i with
    | zero =>
      show ((⟨0, 0, ((0 : ℚ) : W), base⟩ :: chainArcs l base) ::
        unionWalks rest (base + (l.length + 1)))[0]? = _
      rw [List.getElem?_cons_zero]
      show _ = some (⟨0, 0, ((0 : ℚ) : W), base + 0⟩ :: chainArcs l (base + 0))
      rw [Nat.add_zero]
    | succ i' =>
      show ((⟨0, 0, ((0 : ℚ) : W), base⟩ :: chainArcs l base) ::
        unionWalks rest (base + (l.length + 1)))[i' + 1]? = _
      rw [List.getElem?_cons_succ, ih (base + (l.length + 1)) i' (by simpa using hi)]
      have hb : base + (l.length + 1) + chainOffset rest i' =
          base + ((l.length + 1) + chainOffset rest i') := by omega
      rw [hb]
      rfl

theorem unionWalks_mem (ps : List (List Arc × W)) (base : ℕ) (w : List Arc) :
    w ∈ unionWalks ps base ↔
      ∃ i, ∃ hi : i < ps.length,
        w = ⟨0, 0, ((0 : ℚ) : W), base + chainOffset ps i⟩ ::
          chainArcs (ps.get ⟨i, hi⟩).1 (base + chainOffset ps i) := by
  constructor
  · intro hw
    rcases List.mem_iff_getElem?.mp hw with ⟨i, hget⟩
    have hi : i < (unionWalks ps base).length := by
      by_contra hge
      rw [List.getElem?_eq_none (by omega)] at hget
      exact absurd hget (by simp)
    rw [unionWalks_length] at hi
    rw [unionWalks_get ps base i hi] at hget
    exact ⟨i, hi, (Option.some.inj hget).symm⟩
  · rintro ⟨i, hi, rfl⟩
    exact List.mem_iff_getElem?.mpr ⟨i, unionWalks_get ps base i hi⟩

theorem unionWalks_nodup (ps : List (List Arc × W)) :
    ∀ base, (unionWalks ps base).Nodup := by
  induction ps with
  | nil => intro base; exact List.nodup_nil
  | cons p rest ih =>
    intro base
    rcases p with ⟨l, fw⟩
    rw [unionWalks, List.nodup_cons]
    refine ⟨?_, ih _⟩
    intro hmem
    rcases (unionWalks_mem rest (base + (l.length + 1)) _).mp hmem with ⟨i, hi, heq⟩
    injection heq with h1 _
    injection h1 with _ _ _ h4
    omega

theorem spUnion_accepting (ps : List (List Arc × W)) (hps : ∀ p ∈ ps, p.2 ≠ ⊤)
    (w : List Arc) : Accepting (spUnion ps) w ↔ w ∈ unionWalks ps 1 := by
  constructor
  · rintro ⟨s0, hstart, hw, hfin⟩
    have hs0 : s0 = 0 := by
      have h2 : some s0 = some 0 := by
        rw [← hstart]
        exact spUnion_start ps
      exact Option.some.inj h2
    subst hs0
    cases w with
    | nil =>
      have hfin0 : finalWeightQ (spUnion ps) 0 ≠ ⊤ := hfin
      exact absurd (spUnion_final0 ps) hfin0
    | cons a w' =>
      have ha := hw.1
      rw [spUnion_arcList0] at ha
      rcases (unionStarts_mem ps 1 a).mp ha with ⟨i, hi, rfl⟩
      have hreg := spUnion_region ps i hi
      rcases region_acc_walk (spUnion ps) (ps.get ⟨i, hi⟩).1 (ps.get ⟨i, hi⟩).2
          (1 + chainOffset ps i) hreg w' 0 _ (Nat.zero_le _) hw.2 hfin with ⟨hw', _⟩
      rw [List.drop_zero] at hw'
      rw [unionWalks_mem]
      exact ⟨i, hi, by rw [hw', Nat.add_zero]⟩
  · intro hmem
    rcases (unionWalks_mem ps 1 w).mp hmem with ⟨i, hi, rfl⟩
    have hreg := spUnion_region ps i hi
    have hwk := region_walk_exists (spUnion ps) (ps.get ⟨i, hi⟩).1 (ps.get ⟨i, hi⟩).2
      (1 + chainOffset ps i) hreg (ps.get ⟨i, hi⟩).1.length 0 (by omega)
    rw [List.drop_zero] at hwk
    have hend : endOf 0 (⟨0, 0, ((0 : ℚ) : W), 1 + chainOffset ps i⟩ ::
        chainArcs (ps.get ⟨i, hi⟩).1 (1 + chainOffset ps i)) =
        (1 + chainOffset ps i) + (ps.get ⟨i, hi⟩).1.length :=
      chainArcs_endOf (ps.get ⟨i, hi⟩).1 (1 + chainOffset ps i)
    refine ⟨0, rfl, ?_, ?_⟩
    · rw [hend]
      refine ⟨?_, hwk⟩
      rw [spUnion_arcList0]
      exact (unionStarts_mem ps 1 _).mpr ⟨i, hi, rfl⟩
    · rw [hend, region_final_end _ _ _ _ hreg]
      exact hps _ (ps.get_mem i hi)

theorem spUnion_walk_weight (ps : List (List Arc × W)) (i : ℕ) (hi : i < ps.length) :
    pathW (spUnion ps) (⟨0, 0, ((0 : ℚ) : W), 1 + chainOffset ps i⟩ ::
      chainArcs (ps.get ⟨i, hi⟩).1 (1 + chainOffset ps i)) =
    wgt (ps.get ⟨i, hi⟩).1 + (ps.get ⟨i, hi⟩).2 := by
  rw [pathW_eq _ 0 rfl, wgt_cons, chainArcs_wgt]
  have hend : endOf 0 (⟨0, 0, ((0 : ℚ) : W), 1 + chainOffset ps i⟩ ::
      chainArcs (ps.get ⟨i, hi⟩).1 (1 + chainOffset ps i)) =
      (1 + chainOffset ps i) + (ps.get ⟨i, hi⟩).1.length :=
    chainArcs_endOf (ps.get ⟨i, hi⟩).1 (1 + chainOffset ps i)
  rw [hend, region_final_end _ _ _ _ (spUnion_region ps i hi)]
  have h0 : ((0 : ℚ) : W) = 0 := rfl
  rw [h0, zero_add]

/-! ## Assembling the shortest-path claim -/

theorem acc_reduce (t : MFst) (hnn : ∀ s a, a ∈ arcList t s → 0 ≤ a.weight)
    (l : List Arc) (hacc : Accepting t l) :
    ∃ l', Accepting t l' ∧ l'.length ≤ numStates t := by
  rcases hacc with ⟨s0, hstart, hw, hfin⟩
  rcases walk_reduce t (fun _ => true)
      (fun m c hc _ _ => cycle_nonneg t hnn m c hc)
      l.length l s0 (endOf s0 l) (le_refl _) hw (fun _ _ => rfl) with
    ⟨l', hw', _, hlen', _⟩
  refine ⟨l', ⟨s0, hstart, isWalk_endOf t l' s0 _ hw', ?_⟩, hlen'⟩
  rw [(isWalk_end t l' s0 _ hw').symm]
  exact hfin

theorem nBest_ne_nil (t : MFst) (n : ℕ) (hn : 1 ≤ n)
    (hnn : ∀ s a, a ∈ arcList t s → 0 ≤ a.weight)
    (hacc : ∃ l, Accepting t l) : nBest t n ≠ [] := by
  rcases hacc with ⟨l, hl⟩
  rcases acc_reduce t hnn l hl with ⟨l', hl', hlen'⟩
  have hbound : l'.length ≤ (n + 2) * numStates t := by
    have hmul : numStates t ≤ (n + 2) * numStates t := Nat.le_mul_of_pos_left _ (by omega)
    omega
  have hmem : l' ∈ wsL t n := (mem_wsL t n l').mpr (acc_mem_accWalks t l' _ hl' hbound)
  have hlen : 1 ≤ (wsL t n).length := by
    cases hws : wsL t n with
    | nil => rw [hws] at hmem; exact absurd hmem (List.not_mem_nil l')
    | cons x xs => simp
  intro hnil
  unfold nBest at hnil
  have hmin : min n (wsL t n).length = 0 := by
    have h := congrArg List.length hnil
    rw [List.length_take] at h
    exact h
  rcases Nat.min_eq_zero_iff.mp hmin with h | h <;> omega

theorem pathW_endOf_final (t : MFst) (s0 : ℕ) (hstart : t.start = some s0)
    (l : List Arc) (hacc : Accepting t l) :
    finalWeightQ t (endOf s0 l) ≠ ⊤ := by
  rcases hacc with ⟨s0', hstart', _, hfin⟩
  rw [hstart] at hstart'
  cases hstart'
  exact hfin

theorem sp_one (t : MFst) (hnn : ∀ s a, a ∈ arcList t s → 0 ≤ a.weight)
    (hacc : ∃ l, Accepting t l) :
    ∃ t' w₀, shortestPathT t 1 = some t' ∧
      (∀ w, Accepting t' w ↔ w = w₀) ∧
      (∃ l, Accepting t l ∧ pathW t l = pathW t' w₀) ∧
      (∀ l, Accepting t l → pathW t' w₀ ≤ pathW t l) := by
  rcases hacc with ⟨la, hla⟩
  rcases hla with ⟨s0, hstart, hwla, hfinla⟩
  have hne := nBest_ne_nil t 1 (le_refl 1) hnn ⟨la, ⟨s0, hstart, hwla, hfinla⟩⟩
  cases hbest : nBest t 1 with
  | nil => exact absurd hbest hne
  | cons l₀ rest =>
    have hl₀mem : l₀ ∈ nBest t 1 := by
      rw [hbest]
      exact List.mem_cons_self _ _
    have hl₀acc : Accepting t l₀ := nBest_accepting t 1 l₀ hl₀mem
    have hfw : finalWeightQ t (endOf s0 l₀) ≠ ⊤ := pathW_endOf_final t s0 hstart l₀ hl₀acc
    have hsp : shortestPathT t 1 =
        some ⟨chainOf l₀ (finalWeightQ t (endOf s0 l₀)) 0, some 0⟩ := by
      unfold shortestPathT
      rw [hasNegArc_false t hnn, if_neg Bool.false_ne_true]
      simp only [hstart]
      rw [if_true]
      simp only [hbest]
    refine ⟨_, chainArcs l₀ 0, hsp, fun w => chain_accepting l₀ _ hfw w,
      ⟨l₀, hl₀acc, ?_⟩, ?_⟩
    · rw [chain_walk_weight, pathW_eq t s0 hstart]
    · intro l hl
      rw [chain_walk_weight, ← pathW_eq t s0 hstart]
      by_cases hmem : l ∈ nBest t 1
      · have hlen : (nBest t 1).length ≤ 1 := List.length_take_le _ _
        rw [hbest] at hlen hmem
        have hrest : rest = [] := by
          cases rest with
          | nil => rfl
          | cons x xs => simp at hlen
        rw [hrest] at hmem
        rw [List.mem_singleton] at hmem
        subst hmem
        exact le_refl _
      · exact nBest_outside t 1 hnn l hl hmem l₀ hl₀mem

theorem sp_many (t : MFst) (n : ℕ) (hnn : ∀ s a, a ∈ arcList t s → 0 ≤ a.weight)
    (hex : ∃ ps : List (List Arc), ps.Nodup ∧ ps.length = n ∧ ∀ l ∈ ps, Accepting t l)
    (hn : 1 ≤ n) :
    ∃ (t' : MFst) (qs : List (List Arc)), shortestPathT t n = some t' ∧
      qs.Nodup ∧ qs.length = n ∧ (∀ w, Accepting t' w ↔ w ∈ qs) ∧
      ((qs.map (pathW t')).Sorted (· ≤ ·)) ∧
      ∃ bs : List (List Arc), bs.Nodup ∧ (∀ l ∈ bs, Accepting t l) ∧
        bs.map (pathW t) = qs.map (pathW t') ∧
        (∀ l, Accepting t l → l ∉ bs → ∀ v ∈ bs.map (pathW t), v ≤ pathW t l) := by
  have hstart' : ∃ s0, t.start = some s0 := by
    rcases hex with ⟨ps, _, hlen, haccs⟩
    cases hps : ps with
    | nil => rw [hps] at hlen; simp at hlen; omega
    | cons p rest =>
      rcases haccs p (by rw [hps]; exact List.mem_cons_self _ _) with ⟨s0, hstart, _, _⟩
      exact ⟨s0, hstart⟩
  rcases hstart' with ⟨s0, hstart⟩
  have hblen : (nBest t n).length = n := nBest_length t n hnn hex
  have hbacc : ∀ l ∈ nBest t n, Accepting t l := nBest_accepting t n
  by_cases h1 : n = 1
  · subst h1
    cases hbest : nBest t 1 with
    | nil => rw [hbest] at hblen; simp at hblen
    | cons l₀ rest =>
      have hrest : rest = [] := by
        rw [hbest] at hblen
        cases rest with
        | nil => rfl
        | cons x xs => simp at hblen
      subst hrest
      have hl₀mem : l₀ ∈ nBest t 1 := by
        rw [hbest]
        exact List.mem_cons_self _ _
      have hl₀acc : Accepting t l₀ := nBest_accepting t 1 l₀ hl₀mem
      have hfw : finalWeightQ t (endOf s0 l₀) ≠ ⊤ := pathW_endOf_final t s0 hstart l₀ hl₀acc
      have hsp : shortestPathT t 1 =
          some ⟨chainOf l₀ (finalWeightQ t (endOf s0 l₀)) 0, some 0⟩ := by
        unfold shortestPathT
        rw [hasNegArc_false t hnn, if_neg Bool.false_ne_true]
        simp only [hstart]
        rw [if_true]
        simp only [hbest]
      refine ⟨_, [chainArcs l₀ 0], hsp, List.nodup_singleton _, rfl, ?_, ?_,
        ⟨[l₀], List.nodup_singleton _, ?_, ?_, ?_⟩⟩
      · intro w
        rw [List.mem_singleton]
        exact chain_accepting l₀ _ hfw w
      · exact List.sorted_singleton _
      · intro l hl
        rw [List.mem_singleton] at hl
        subst hl
        exact hl₀acc
      · show [pathW t l₀] = [pathW _ (chainArcs l₀ 0)]
        rw [chain_walk_weight, pathW_eq t s0 hstart]
      · intro l hl hnot v hv
        rw [List.map_singleton, List.mem_singleton] at hv
        subst hv
        rw [pathW_eq t s0 hstart] at *
        rw [← pathW_eq t s0 hstart]
        by_cases hmem : l ∈ nBest t 1
        · rw [hbest, List.mem_singleton] at hmem
          subst hmem
          exact le_refl _
        · exact nBest_outside t 1 hnn l hl hmem l₀ hl₀mem
  · have hpsne : ∀ p ∈ (nBest t n).map (fun l => (l, finalWeightQ t (endOf s0 l))),
        p.2 ≠ ⊤ := by
      intro p hp
      rcases List.mem_map.mp hp with ⟨l, hl, rfl⟩
      exact pathW_endOf_final t s0 hstart l (hbacc l hl)
    have hsp : shortestPathT t n =
        some (spUnion ((nBest t n).map (fun l => (l, finalWeightQ t (endOf s0 l))))) := by
      unfold shortestPathT
      rw [hasNegArc_false t hnn, if_neg Bool.false_ne_true]
      simp only [hstart]
      rw [if_neg h1]
    have hpslen : ((nBest t n).map (fun l => (l, finalWeightQ t (endOf s0 l)))).length = n := by
      rw [List.length_map, hblen]
    have hqw : (unionWalks ((nBest t n).map (fun l => (l, finalWeightQ t (endOf s0 l)))) 1).map
          (pathW (spUnion ((nBest t n).map (fun l => (l, finalWeightQ t (endOf s0 l)))))) =
        ((nBest t n).map (fun l => (l, finalWeightQ t (endOf s0 l)))).map
          (fun p => wgt p.1 + p.2) := by
      apply List.ext_getElem?
      intro i
      rw [List.getElem?_map, List.getElem?_map]
      by_cases hi : i < ((nBest t n).map (fun l => (l, finalWeightQ t (endOf s0 l)))).length
      · rw [unionWalks_get _ 1 i hi]
        have hp : ((nBest t n).map (fun l => (l, finalWeightQ t (endOf s0 l))))[i]? =
            some (((nBest t n).map (fun l => (l, finalWeightQ t (endOf s0 l)))).get ⟨i, hi⟩) := by
          rw [List.getElem?_eq_getElem hi, List.get_eq_getElem]
        rw [hp, Option.map_some', Option.map_some', spUnion_walk_weight _ i hi]
      · have hni : (unionWalks ((nBest t n).map (fun l => (l, finalWeightQ t (endOf s0 l)))) 1)[i]? =
            none := List.getElem?_eq_none (by rw [unionWalks_length]; omega)
        have hpi : ((nBest t n).map (fun l => (l, finalWeightQ t (endOf s0 l))))[i]? = none :=
          List.getElem?_eq_none (by omega)
        rw [hni, hpi]
        rfl
    have hpw : ((nBest t n).map (fun l => (l, finalWeightQ t (endOf s0 l)))).map
          (fun p => wgt p.1 + p.2) = (nBest t n).map (pathW t) := by
      rw [List.map_map]
      apply List.map_congr_left
      intro l _
      show wgt l + finalWeightQ t (endOf s0 l) = pathW t l
      rw [pathW_eq t s0 hstart]
    refine ⟨_, unionWalks ((nBest t n).map (fun l => (l, finalWeightQ t (endOf s0 l)))) 1,
      hsp, unionWalks_nodup _ 1, ?_, fun w => spUnion_accepting _ hpsne w, ?_,
      ⟨nBest t n, nBest_nodup t n, hbacc, ?_, ?_⟩⟩
    · rw [unionWalks_length, hpslen]
    · rw [hqw, hpw]
      exact nBest_sorted t n
    · rw [hqw, hpw]
    · intro l hl hnot v hv
      rcases List.mem_map.mp hv with ⟨x, hx, rfl⟩
      exact nBest_outside t n hnn l hl hnot x hx

/-- **C3.** Modelled from the spec: with all arc weights non-negative,
`fst_shortest_path(T, 1)` (spec 4.9) outputs a transducer with a single
accepting walk whose total weight equals the minimum over all accepting
walks of `T`; for `n >= 1`, when `T` has `n` distinct accepting walks the
output has exactly `n` accepting walks, their weights sorted non-decreasing,
and those weights are the weights of `n` accepting walks of `T` no worse
than every accepting walk outside the chosen set (the `n` lowest
accepting-walk weights in non-decreasing order).  A negative arc weight
makes the call fail (the INVALID_STATE category of spec 7), observable as
`FST_INVALID_HANDLE` since the function returns a handle. -/
theorem claim_C3 (t : MFst) (n : ℕ) :
    ((∀ s a, a ∈ arcList t s → 0 ≤ a.weight) →
      ((∃ l, Accepting t l) →
        ∃ t' w₀, shortestPathT t 1 = some t' ∧
          (∀ w, Accepting t' w ↔ w = w₀) ∧
          (∃ l, Accepting t l ∧ pathW t l = pathW t' w₀) ∧
          (∀ l, Accepting t l → pathW t' w₀ ≤ pathW t l)) ∧
      (1 ≤ n →
        (∃ ps : List (List Arc), ps.Nodup ∧ ps.length = n ∧ ∀ l ∈ ps, Accepting t l) →
        ∃ (t' : MFst) (qs : List (List Arc)), shortestPathT t n = some t' ∧
          qs.Nodup ∧ qs.length = n ∧ (∀ w, Accepting t' w ↔ w ∈ qs) ∧
          ((qs.map (pathW t')).Sorted (· ≤ ·)) ∧
          ∃ bs : List (List Arc), bs.Nodup ∧ (∀ l ∈ bs, Accepting t l) ∧
            bs.map (pathW t) = qs.map (pathW t') ∧
            (∀ l, Accepting t l → l ∉ bs → ∀ v ∈ bs.map (pathW t), v ≤ pathW t l))) ∧
    ((∃ s a, a ∈ arcList t s ∧ a.weight < 0) →
      shortestPathT t n = none ∧
      ∀ r h, findMut r h = some t → fst_shortest_path r h n = (r, FST_INVALID_HANDLE)) := by
  constructor
  · intro hnn
    exact ⟨fun hacc => sp_one t hnn hacc, fun hn hex => sp_many t n hnn hex hn⟩
  · rintro ⟨s, a, ha, hneg⟩
    have hb : hasNegArc t = true := hasNegArc_true t s a ha hneg
    have hsp : shortestPathT t n = none := by
      unfold shortestPathT
      rw [hb, if_pos rfl]
    refine ⟨hsp, fun r h hfind => ?_⟩
    simp only [fst_shortest_path, hfind, hsp]

/-- C3, witness: a one-state transducer accepting only the empty walk with
weight 0 for the non-negative scenarios, and a one-state transducer with a
negative arc for the rejection scenario. -/
theorem claim_C3_witness :
    (∃ t' w₀, shortestPathT ⟨[⟨((0 : ℚ) : W), []⟩], some 0⟩ 1 = some t' ∧
      (∀ w, Accepting t' w ↔ w = w₀) ∧
      (∃ l, Accepting ⟨[⟨((0 : ℚ) : W), []⟩], some 0⟩ l ∧
        pathW ⟨[⟨((0 : ℚ) : W), []⟩], some 0⟩ l = pathW t' w₀) ∧
      (∀ l, Accepting ⟨[⟨((0 : ℚ) : W), []⟩], some 0⟩ l →
        pathW t' w₀ ≤ pathW ⟨[⟨((0 : ℚ) : W), []⟩], some 0⟩ l)) ∧
    (∃ (t' : MFst) (qs : List (List Arc)),
      shortestPathT ⟨[⟨((0 : ℚ) : W), []⟩], some 0⟩ 1 = some t' ∧
      qs.Nodup ∧ qs.length = 1 ∧ (∀ w, Accepting t' w ↔ w ∈ qs)) ∧
    shortestPathT ⟨[⟨⊤, [⟨1, 1, ((-1 : ℚ) : W), 0⟩]⟩], some 0⟩ 1 = none ∧
    fst_shortest_path ⟨[some (.mobj ⟨[⟨⊤, [⟨1, 1, ((-1 : ℚ) : W), 0⟩]⟩], some 0⟩)]⟩ 0 1 =
      (⟨[some (.mobj ⟨[⟨⊤, [⟨1, 1, ((-1 : ℚ) : W), 0⟩]⟩], some 0⟩)]⟩, FST_INVALID_HANDLE) := by
  have hnn : ∀ s a, a ∈ arcList ⟨[⟨((0 : ℚ) : W), []⟩], some 0⟩ s → 0 ≤ a.weight := by
    intro s a ha
    have hemp : arcList ⟨[⟨((0 : ℚ) : W), []⟩], some 0⟩ s = [] := by
      unfold arcList
      cases s with
      | zero => rfl
      | succ m => rfl
    rw [hemp] at ha
    exact absurd ha (List.not_mem_nil a)
  have hacc0 : Accepting ⟨[⟨((0 : ℚ) : W), []⟩], some 0⟩ [] :=
    ⟨0, rfl, rfl, WithTop.coe_ne_top⟩
  have hmain := (claim_C3 ⟨[⟨((0 : ℚ) : W), []⟩], some 0⟩ 1).1 hnn
  have hneg : ∃ s a, a ∈ arcList ⟨[⟨⊤, [⟨1, 1, ((-1 : ℚ) : W), 0⟩]⟩], some 0⟩ s ∧
      a.weight < 0 := by
    refine ⟨0, ⟨1, 1, ((-1 : ℚ) : W), 0⟩, List.mem_cons_self _ _, ?_⟩
    show ((-1 : ℚ) : W) < ((0 : ℚ) : W)
    exact_mod_cast (by norm_num : (-1 : ℚ) < 0)
  have hfail := (claim_C3 ⟨[⟨⊤, [⟨1, 1, ((-1 : ℚ) : W), 0⟩]⟩], some 0⟩ 1).2 hneg
  have haccs : ∀ l ∈ [([] : List Arc)], Accepting ⟨[⟨((0 : ℚ) : W), []⟩], some 0⟩ l := by
    intro l hl
    rw [List.mem_singleton] at hl
    subst hl
    exact hacc0
  have h2 := hmain.2 (le_refl 1) ⟨[[]], List.nodup_singleton _, rfl, haccs⟩
  rcases h2 with ⟨t', qs, hsp, hnd, hlen, hiff, _, _⟩
  exact ⟨hmain.1 ⟨[], hacc0⟩, ⟨t', qs, hsp, hnd, hlen, hiff⟩, hfail.1, hfail.2 _ 0 rfl⟩

end LibFst
